import Mathlib

/-!
Verification development for the DetaORM client library.

This file gives a shallow embedding, in Lean 4, of the algorithmic core of
the repository:

* the query algebra and its normalization to disjunctive normal form
  (`src/detaorm/query.py`: classes `Node`, `And`, `Or`, `Query`),
* the update-instruction merge performed before transmission
  (`src/detaorm/client.py`: `Client.update_item`),
* the local patch reconciliation of confirmed update instructions
  (`src/detaorm/base.py`: `Base.update`),
* the page cursor (`src/detaorm/paginator.py`: `RawPaginator`, `RawPage`).

Modelling conventions:

* JSON-like Python values are modelled by the inductive type `Val`.
  Python `dict`s are insertion-ordered association lists with unique keys
  (`List (String × Val)`), mirroring Python 3.7+ dict ordering semantics.
  Python `bool` is a subclass of `int`, so `isinstance(x, int)` accepts
  booleans; the helper `toIntQ` reflects this.
* Python exceptions are modelled by the error type `UErr`
  (`AssertionError` on a type assert ↦ `typeMismatch`, `KeyError` from
  `dict.pop` ↦ `pathNotFound`, `ValueError` ↦ `valueError`; other runtime
  type failures, e.g. indexing a non-dict intermediate value reached by
  `Base.update`'s `traverse`, are collapsed into `crash`).
* Asynchronous transport calls always resolve in this model; the transport
  is an explicit oracle function argument (`fetch`), so a statement that
  holds for every `fetch` in particular holds without performing a fetch.
-/

/-- JSON-like values stored in a Deta record (a Python object coming from
`resp.json()`): null, booleans, integers, strings, lists and ordered
string-keyed mappings. -/
inductive Val where
  | vnull
  | vbool (b : Bool)
  | vint (n : Int)
  | vstr (s : String)
  | vlist (xs : List Val)
  | vdict (m : List (String × Val))
deriving Repr

/-- A record snapshot or nested mapping: a Python `dict[str, object]`,
modelled as an insertion-ordered association list. -/
abbrev Dict := List (String × Val)

/-- Python `m[k]` / `k in m` lookup on a dict (first matching key;
keys are unique in every dict built by the modelled code). -/
def dlookup (m : Dict) (k : String) : Option Val :=
  match m with
  | [] => none
  | p :: rest => if p.1 = k then some p.2 else dlookup rest k

/-- Python `m[k] = v` on a dict: overwrite in place if the key is present
(keeping its position), otherwise append the new key at the end. -/
def dset (m : Dict) (k : String) (v : Val) : Dict :=
  if m.any (fun p => p.1 = k) then
    m.map (fun p => if p.1 = k then (k, v) else p)
  else
    m ++ [(k, v)]

/-- Python `m.pop(k)` with the key present: remove the entry for `k`.
The `KeyError` raised when the key is absent is handled at the call site. -/
def dpop (m : Dict) (k : String) : Dict :=
  m.filter (fun p => p.1 ≠ k)

/-- Python `{**l, **r}` dict merge: keys of `l` in their order, values
overridden by `r` where present, then the keys of `r` not in `l`,
in their order. -/
def dunion (l r : Dict) : Dict :=
  l.map (fun p => match dlookup r p.1 with
    | some v => (p.1, v)
    | none => p)
  ++ r.filter (fun p => ¬ l.any (fun q => q.1 = p.1))

/-- Python dict construction `{k: v for (k, v) in ps}`: left-to-right
insertion, a later duplicate key overwrites the value but keeps the
first occurrence's position. -/
def dictOfPairs (ps : List (String × Val)) : Dict :=
  ps.foldl (fun m p => dset m p.1 p.2) []

/-! ## Query algebra (`src/detaorm/query.py`)

The Python classes `Query` (a literal filter term, already carrying its
encoded key such as `"age?gt"`), `And` (conjunction) and `Or` (disjunction)
become one inductive type `Node`. -/

/-- Expression node of the query algebra: `Node.query key value` is the
class `Query` (an atomic term), `Node.and` the class `And`, `Node.or` the
class `Or`, each holding its `nodes` sequence. -/
inductive Node where
  | query (key : String) (value : Val)
  | and (ns : List Node)
  | or (ns : List Node)
deriving Repr

/-- The `And` branch of `Node._filter_nodes`: splice the children of
nested `And` nodes one level deep, keep everything else. -/
def filterAnd : List Node → List Node
  | [] => []
  | Node.and ms :: rest => ms ++ filterAnd rest
  | n :: rest => n :: filterAnd rest

/-- The constructor `And(*nodes)`, which applies `_filter_nodes`. -/
def mkAnd (ns : List Node) : Node := Node.and (filterAnd ns)

/-- The `Or` branch of `Node._filter_nodes`: splice the children of
nested `Or` nodes one level deep, keep everything else. -/
def filterOr : List Node → List Node
  | [] => []
  | Node.or ms :: rest => ms ++ filterOr rest
  | n :: rest => n :: filterOr rest

/-- The constructor `Or(*nodes)`, which applies `_filter_nodes`. -/
def mkOr (ns : List Node) : Node := Node.or (filterOr ns)

mutual

/-- The `_and` method, `x._and(y)`, with the Python dynamic dispatch
unfolded one step where a class delegates to `other._and(self)`:

* `And._and`: append a `Query`, concatenate with an `And`, and delegate
  to `Or._and(other, self)` for an `Or`;
* `Query._and`: build a two-term `And` with another `Query`, otherwise
  delegate to `other._and(self)`;
* `Or._and`: distribute, `Or(*(n._and(other) for n in self.nodes))`. -/
def andOp : Node → Node → Node
  | Node.and ns, Node.query k v => mkAnd (ns ++ [Node.query k v])
  | Node.and ns, Node.and ms => mkAnd (ns ++ ms)
  | Node.and ns, Node.or ms => mkOr (andList ms (Node.and ns))
  | Node.query k v, Node.query k2 v2 => mkAnd [Node.query k v, Node.query k2 v2]
  | Node.query k v, Node.and ms => mkAnd (ms ++ [Node.query k v])
  | Node.query k v, Node.or ms => mkOr (andList ms (Node.query k v))
  | Node.or ns, y => mkOr (andList ns y)
termination_by x y => sizeOf x + sizeOf y

/-- The generator `(n._and(other) for n in nodes)` used by `Or._and`. -/
def andList : List Node → Node → List Node
  | [], _ => []
  | n :: rest, y => andOp n y :: andList rest y
termination_by l y => sizeOf l + sizeOf y

end

mutual

/-- The `_flatten` method: a `Query` is itself; an `And` folds `_and`
over its flattened children (`Or()` when there are none, from
`return final or Or()`); an `Or` rebuilds itself from its flattened
children through the filtering constructor. -/
def flatten : Node → Node
  | Node.query k v => Node.query k v
  | Node.and ns =>
    match flattenList ns with
    | [] => mkOr []
    | c :: cs => cs.foldl andOp c
  | Node.or ns => mkOr (flattenList ns)
termination_by n => sizeOf n

/-- Flattening each element of a `nodes` sequence in order. -/
def flattenList : List Node → List Node
  | [] => []
  | n :: rest => flatten n :: flattenList rest
termination_by l => sizeOf l

end

/-- One clause of the wire query: the dict `{q.key: q.value for q in
node.nodes}` built by `Node.deta_query` from a top-level `Query` or `And`
child; `none` models the `assert` failures for a malformed node. -/
def clauseOf : Node → Option Dict
  | Node.query k v => some (dictOfPairs [(k, v)])
  | Node.and ns =>
    (ns.mapM (fun n => match n with
      | Node.query k v => some (k, v)
      | _ => none)).map dictOfPairs
  | Node.or _ => none

/-- The method `Node.deta_query`: flatten, wrap a non-`Or` result in
`Or(tree)`, and serialize each top-level child to a clause dict.
`none` models an `AssertionError` on a malformed tree. -/
def deta_query (n : Node) : Option (List Dict) :=
  let tree := flatten n
  let tree2 := match tree with
    | Node.or _ => tree
    | _ => mkOr [tree]
  match tree2 with
  | Node.or ns => ns.mapM clauseOf
  | _ => none

/-! ### Normal-form predicates

`flatten` is the normalizer; these predicates describe its image: a literal,
a conjunction of at least two literals, or a disjunction whose children are
such clauses. -/

/-- Is this node a literal (`Query`)? -/
def isQuery : Node → Bool
  | Node.query _ _ => true
  | _ => false

/-- Is this node anything but a disjunction? -/
def notOrB : Node → Bool
  | Node.or _ => false
  | _ => true

/-- Weak clause: a literal, or a conjunction all of whose children are
literals (any number of them). -/
def isClauseW : Node → Bool
  | Node.query _ _ => true
  | Node.and ns => ns.all isQuery
  | Node.or _ => false

/-- Strict clause: a literal, or a conjunction of at least two literals.
Exactly the shapes `flatten` produces below a top-level disjunction. -/
def isClause : Node → Bool
  | Node.query _ _ => true
  | Node.and ns => decide (2 ≤ ns.length) && ns.all isQuery
  | Node.or _ => false

/-- Normal form: a strict clause, or a disjunction of strict clauses. -/
def isNF : Node → Bool
  | Node.or ns => ns.all isClause
  | n => isClause n

/-- The `terms` of a clause: a literal is its own single term, a
conjunction contributes its children. -/
def termsOf : Node → List Node
  | Node.query k v => [Node.query k v]
  | Node.and ns => ns
  | Node.or ns => ns

/-- The conjunction the code actually builds for the pair `(c1, c2)`
during the AND-merge of two disjunctions `D1._and(D2)` (the inner call is
`c2._and(c1)`): the terms of `c2` come first, except when `c2` is a
literal and `c1` a conjunction, where `c1`'s terms come first. -/
def mergeClause (c1 c2 : Node) : Node :=
  match c2, c1 with
  | Node.query k v, Node.and ns => Node.and (ns ++ [Node.query k v])
  | _, _ => Node.and (termsOf c2 ++ termsOf c1)

/-! ## Update-instruction merge (`src/detaorm/client.py`, `Client.update_item`)

`update_item` builds the five-key wire object
`{"set": .., "increment": .., "append": .., "prepend": .., "delete": ..}`
and folds the supplied `Update` objects into it with `join`. -/

/-- A value of one slot of the update wire object: a mapping payload
(`set`/`increment`/`append`/`prepend`) or a list of paths (`delete`). -/
inductive UVal where
  | m (entries : List (String × Val))
  | l (paths : List String)
deriving Repr

/-- The update wire object under construction: a Python dict from slot
name to slot payload. -/
abbrev UData := List (String × UVal)

/-- Lookup in the update wire object (`data.get(update.field)`). -/
def ulookup (d : UData) (k : String) : Option UVal :=
  match d with
  | [] => none
  | p :: rest => if p.1 = k then some p.2 else ulookup rest k

/-- Assignment `data[update.field] = ...`: the five keys are always
present, so this overwrites in place; appends if absent, like a Python
dict. -/
def uset (d : UData) (k : String) (v : UVal) : UData :=
  if d.any (fun p => p.1 = k) then
    d.map (fun p => if p.1 = k then (k, v) else p)
  else
    d ++ [(k, v)]

/-- Errors raised by the modelled Python code. `typeMismatch` stands for
an `AssertionError` from an `isinstance` assert, `pathNotFound` for the
`KeyError` of `dict.pop` on an absent key, `valueError` for the explicit
`ValueError` on an unknown update field, `crash` for any other runtime
type failure (see the file header). -/
inductive UErr where
  | typeMismatch
  | pathNotFound
  | valueError
  | crash
deriving DecidableEq, Repr

/-- An `Update` object (`src/detaorm/update.py`): a kind tag (its `field`,
one of `"set"`, `"increment"`, `"append"`, `"prepend"`, `"delete"`) and
its payload. -/
structure Update where
  field : String
  payload : UVal

/-- The local helper `join` of `Client.update_item`: mapping payloads
merge by `{**left, **right}`, list payloads concatenate; mixing the two
fails an `isinstance` assert. -/
def joinU : UVal → UVal → Except UErr UVal
  | UVal.m l, UVal.m r => Except.ok (UVal.m (dunion l r))
  | UVal.l l, UVal.l r => Except.ok (UVal.l (l ++ r))
  | _, _ => Except.error UErr.typeMismatch

/-- The initial `data` dict of `Client.update_item`, built from the
keyword arguments (`set or {}` etc. — `none` and an empty mapping agree,
so the keywords are modelled as plain lists). -/
def udInit (sets incs apps pres : List (String × Val)) (dels : List String) : UData :=
  [("set", UVal.m sets), ("increment", UVal.m incs), ("append", UVal.m apps),
   ("prepend", UVal.m pres), ("delete", UVal.l dels)]

/-- One iteration of the `for update in updates` loop of
`Client.update_item`: look the kind up in `data`, `join` the payload in,
or raise `ValueError` for an unexpected field. -/
def updStep (d : UData) (u : Update) : Except UErr UData :=
  match ulookup d u.field with
  | some val => (joinU val u.payload).map (fun j => uset d u.field j)
  | none => Except.error UErr.valueError

/-- The merged update wire object transmitted by `Client.update_item`
(and returned to `Base.update` for reconciliation): the keyword payloads,
with every `Update` object folded in, in caller order. -/
def updateItemData (sets incs apps pres : List (String × Val)) (dels : List String)
    (updates : List Update) : Except UErr UData :=
  updates.foldlM updStep (udInit sets incs apps pres dels)

/-! ## Patch reconciliation (`src/detaorm/base.py`, `Base.update`)

`Base.update` replays the confirmed merged instruction set against the
record's `raw` dict, kind by kind in the fixed textual order
set, increment, append, prepend, delete. Dotted paths are resolved by the
local helper `traverse`, which walks `key.split(".")` with
`setdefault(k, {})`. -/

/-- Python `key.split(".")` (the separator is never empty, every
occurrence splits, empty segments are kept). -/
def splitDotAux : List Char → List Char → List String
  | [], acc => [String.mk acc.reverse]
  | c :: cs, acc =>
    if c = '.' then String.mk acc.reverse :: splitDotAux cs []
    else splitDotAux cs (c :: acc)

/-- Python `key.split(".")` on a path string. -/
def splitDot (s : String) : List String := splitDotAux s.data []

/-- The intermediate segments of a dotted path (`keys` after
`keys.pop(-1)` in `traverse`). -/
def pathDirs (k : String) : List String := (splitDot k).dropLast

/-- The final segment of a dotted path (`final_key` in `traverse`). -/
def pathLeaf (k : String) : String := ((splitDot k).getLast?).getD ""

/-- Walking `traverse` and mutating the final dict, functionally: descend
along the intermediate segments — entering an existing nested dict, or
the fresh `{}` that `setdefault` inserts at the end of the current dict
when the segment is absent — and apply `op` to the final dict. An
existing non-dict intermediate makes the Python code fail on the next
subscript/membership operation; that is modelled as `crash`. -/
def applyAt (m : Dict) (dirs : List String) (op : Dict → Except UErr Dict) :
    Except UErr Dict :=
  match dirs with
  | [] => op m
  | k :: rest =>
    match dlookup m k with
    | some (Val.vdict inner) =>
      (applyAt inner rest op).map (fun inner2 => dset m k (Val.vdict inner2))
    | some _ => Except.error UErr.crash
    | none =>
      (applyAt [] rest op).map (fun inner2 => m ++ [(k, Val.vdict inner2)])

/-- The final dict that `traverse` would hand to the loop body: the
nested dict at the intermediate segments, or the fresh empty dict
`setdefault` would create; `none` when an existing non-dict intermediate
is hit. -/
def contextAt (m : Dict) (dirs : List String) : Option Dict :=
  match dirs with
  | [] => some m
  | k :: rest =>
    match dlookup m k with
    | some (Val.vdict inner) => contextAt inner rest
    | some _ => none
    | none => contextAt [] rest

/-- Rebuild the snapshot after the final dict at the intermediate
segments has been replaced by `ctx2` (the functional image of mutating
the dict returned by `traverse` in place). -/
def replaceAt (m : Dict) (dirs : List String) (ctx2 : Dict) : Dict :=
  match dirs with
  | [] => ctx2
  | k :: rest =>
    match dlookup m k with
    | some (Val.vdict inner) => dset m k (Val.vdict (replaceAt inner rest ctx2))
    | some _ => m
    | none => m ++ [(k, Val.vdict (replaceAt [] rest ctx2))]

/-- Does `traverse` reach the final dict without hitting an existing
non-dict intermediate? (Spec §4.3: "a dotted path navigates nested
mappings within the Snapshot".) -/
def navigable (m : Dict) (dirs : List String) : Bool :=
  match dirs with
  | [] => true
  | k :: rest =>
    match dlookup m k with
    | some (Val.vdict inner) => navigable inner rest
    | some _ => false
    | none => true

/-- The value of a dotted leaf path in a snapshot: navigate the
intermediate segments, then look up the final segment. -/
def resolve (m : Dict) (k : String) : Option Val :=
  (contextAt m (pathDirs k)).bind (fun ctx => dlookup ctx (pathLeaf k))

/-- Python `isinstance(x, int)` together with the integer value: `bool`
is a subclass of `int` in Python, so booleans count (and coerce). -/
def toIntQ : Val → Option Int
  | Val.vint n => some n
  | Val.vbool b => some (if b then 1 else 0)
  | _ => none

/-- Python `isinstance(x, list)` together with the list value. -/
def toListQ : Val → Option (List Val)
  | Val.vlist xs => some xs
  | _ => none

/-- Loop body of the `set` loop: `dct[fk] = v`. -/
def setOp (fk : String) (v : Val) (ctx : Dict) : Except UErr Dict :=
  Except.ok (dset ctx fk v)

/-- Loop body of the `increment` loop: absent leaf is skipped
(`continue`), then `assert isinstance(v, int)`,
`assert isinstance(orig, int)`, and `dct[fk] = orig + v`. -/
def incOp (fk : String) (v : Val) (ctx : Dict) : Except UErr Dict :=
  match dlookup ctx fk with
  | none => Except.ok ctx
  | some orig =>
    match toIntQ v with
    | none => Except.error UErr.typeMismatch
    | some dv =>
      match toIntQ orig with
      | none => Except.error UErr.typeMismatch
      | some ov => Except.ok (dset ctx fk (Val.vint (ov + dv)))

/-- Loop body of the `append` loop: absent leaf is skipped, then
`assert isinstance(v, list)`, `assert isinstance(orig, list)`, and
`dct[fk] = orig + v`. -/
def appOp (fk : String) (v : Val) (ctx : Dict) : Except UErr Dict :=
  match dlookup ctx fk with
  | none => Except.ok ctx
  | some orig =>
    match toListQ v with
    | none => Except.error UErr.typeMismatch
    | some xs =>
      match toListQ orig with
      | none => Except.error UErr.typeMismatch
      | some os => Except.ok (dset ctx fk (Val.vlist (os ++ xs)))

/-- Loop body of the `prepend` loop: as `append`, but `dct[fk] = v + orig`. -/
def preOp (fk : String) (v : Val) (ctx : Dict) : Except UErr Dict :=
  match dlookup ctx fk with
  | none => Except.ok ctx
  | some orig =>
    match toListQ v with
    | none => Except.error UErr.typeMismatch
    | some xs =>
      match toListQ orig with
      | none => Except.error UErr.typeMismatch
      | some os => Except.ok (dset ctx fk (Val.vlist (xs ++ os)))

/-- Loop body of the `delete` loop: `dct.pop(fk)` — `KeyError`
(`pathNotFound`) when the final key is absent. -/
def delOp (fk : String) (ctx : Dict) : Except UErr Dict :=
  if ctx.any (fun p => p.1 = fk) then Except.ok (dpop ctx fk)
  else Except.error UErr.pathNotFound

/-- Apply one `set` entry at its dotted path. -/
def applySetPair (m : Dict) (k : String) (v : Val) : Except UErr Dict :=
  applyAt m (pathDirs k) (setOp (pathLeaf k) v)

/-- Apply one `increment` entry at its dotted path. -/
def applyIncPair (m : Dict) (k : String) (v : Val) : Except UErr Dict :=
  applyAt m (pathDirs k) (incOp (pathLeaf k) v)

/-- Apply one `append` entry at its dotted path. -/
def applyAppPair (m : Dict) (k : String) (v : Val) : Except UErr Dict :=
  applyAt m (pathDirs k) (appOp (pathLeaf k) v)

/-- Apply one `prepend` entry at its dotted path. -/
def applyPrePair (m : Dict) (k : String) (v : Val) : Except UErr Dict :=
  applyAt m (pathDirs k) (preOp (pathLeaf k) v)

/-- Apply one `delete` path. -/
def applyDelPath (m : Dict) (k : String) : Except UErr Dict :=
  applyAt m (pathDirs k) (delOp (pathLeaf k))

/-- The `cd` helper of `Base.update` applied to `ud[field]`: a missing
key would be a `KeyError` (`crash`), a non-dict value fails the assert. -/
def cdSlot (v : Option UVal) : Except UErr (List (String × Val)) :=
  match v with
  | some (UVal.m entries) => Except.ok entries
  | some (UVal.l _) => Except.error UErr.typeMismatch
  | none => Except.error UErr.crash

/-- The `cl` helper of `Base.update` applied to `ud[field]`. -/
def clSlot (v : Option UVal) : Except UErr (List String) :=
  match v with
  | some (UVal.l paths) => Except.ok paths
  | some (UVal.m _) => Except.error UErr.typeMismatch
  | none => Except.error UErr.crash

/-- The five reconciliation loops of `Base.update`, in their fixed
textual order: set, increment, append, prepend, delete. Each loop walks
its slot's entries in order and applies them at their dotted paths. -/
def baseUpdate (raw : Dict) (ud : UData) : Except UErr Dict := do
  let sets ← cdSlot (ulookup ud "set")
  let raw ← sets.foldlM (fun d p => applySetPair d p.1 p.2) raw
  let incs ← cdSlot (ulookup ud "increment")
  let raw ← incs.foldlM (fun d p => applyIncPair d p.1 p.2) raw
  let apps ← cdSlot (ulookup ud "append")
  let raw ← apps.foldlM (fun d p => applyAppPair d p.1 p.2) raw
  let pres ← cdSlot (ulookup ud "prepend")
  let raw ← pres.foldlM (fun d p => applyPrePair d p.1 p.2) raw
  let dels ← clSlot (ulookup ud "delete")
  let raw ← dels.foldlM applyDelPath raw
  pure raw

/-- A `Base` model instance: its `raw` dict of field values. -/
structure BaseObj where
  raw : Dict
deriving Repr

/-- The observable effect of `Base.update` on the two snapshot holders,
given the confirmed merged instruction set `ud`. The code runs
`new_self = type(self)()` followed by `new_self.raw = self.raw`
(base.py lines 144–145): the two objects share one dict object, and the
reconciliation loops mutate that shared dict in place through `traverse`.
The returned pair is `(self after the call, new_self)` — both end up
holding the same mutated mapping. -/
def baseUpdateRun (self : BaseObj) (ud : UData) :
    Except UErr (BaseObj × BaseObj) :=
  (baseUpdate self.raw ud).map (fun r => (BaseObj.mk r, BaseObj.mk r))

/-- Reconciliation as invoked by `Base.update`: merge the caller's
keyword payloads and `Update` objects via `Client.update_item`, then
replay the merged instruction set on the snapshot. -/
def updateFlow (raw : Dict) (sets incs apps pres : List (String × Val))
    (dels : List String) (updates : List Update) : Except UErr Dict :=
  (updateItemData sets incs apps pres dels updates).bind (baseUpdate raw)

/-! ## Page cursor (`src/detaorm/paginator.py`) -/

/-- A `RawPage`: the fields stored by `RawPage.__init__`. The query is
kept opaque (already serialized clause dicts). -/
structure RawPage where
  base_name : String
  query : Option (List Dict)
  lim : Nat
  size : Nat
  last : Option String
  items : List Dict
deriving Repr

/-- Python falsiness of the stored continuation token `self._last`:
`None` and the empty string are both falsy. -/
def isFalsyTok : Option String → Bool
  | none => true
  | some s => s = ""

/-- The transport oracle: what `Client.query_items` would return for a
given base name, query, limit and last key. The model makes every fetch
resolve (transport errors are out of scope, §6). -/
abbrev Fetch := String → Option (List Dict) → Nat → Option String → RawPage

/-- The method `RawPage.next(limit=None)`: terminal `None` when the
stored token is falsy, otherwise a fetch reusing the stored query with
the limit overridden if supplied. -/
def RawPage.next (fetch : Fetch) (p : RawPage) (limOpt : Option Nat) :
    Option RawPage :=
  if isFalsyTok p.last then none
  else some (fetch p.base_name p.query (limOpt.getD p.lim) p.last)

/-- The mutable state of a `RawPaginator`: the pending first page (a
resolved awaitable in this model; `none` once consumed) and the current
page. -/
structure PagState where
  firstPage : Option RawPage
  currentPage : Option RawPage
deriving Repr

/-- Outcome of one `RawPaginator.__anext__` call: a page plus the new
state, the `StopAsyncIteration` terminal signal plus the new state, or an
`AssertionError` from `assert self.__current_page`. -/
inductive AnextR where
  | page (p : RawPage) (s : PagState)
  | stopIter (s : PagState)
  | assertFail
deriving Repr

/-- The method `RawPaginator.__anext__`: deliver the pending first page
if any; otherwise assert a current page exists, step it with
`RawPage.next()`, and either deliver the new page or clear the state and
signal `StopAsyncIteration`. -/
def anext (fetch : Fetch) (s : PagState) : AnextR :=
  match s.firstPage with
  | some fp => AnextR.page fp (PagState.mk none (some fp))
  | none =>
    match s.currentPage with
    | none => AnextR.assertFail
    | some cp =>
      match RawPage.next fetch cp none with
      | none => AnextR.stopIter (PagState.mk none none)
      | some np => AnextR.page np (PagState.mk none (some np))

/-! ### Characterization helpers for the update merge

These describe, per kind, which payloads a list of `Update` objects
contributes; they are used to state what `Client.update_item` transmits. -/

/-- The mapping payloads of all updates of kind `f`, in caller order. -/
def setsOfUpd (us : List Update) (f : String) : List (List (String × Val)) :=
  us.filterMap (fun u =>
    if u.field = f then
      match u.payload with
      | UVal.m entries => some entries
      | UVal.l _ => none
    else none)

/-- The path-list payloads of all `delete` updates, in caller order. -/
def delsOfUpd (us : List Update) : List (List String) :=
  us.filterMap (fun u =>
    if u.field = "delete" then
      match u.payload with
      | UVal.l paths => some paths
      | UVal.m _ => none
    else none)

/-- An update that `Client.update_item` accepts without raising: its kind
is one of the five slots and its payload type matches the slot. -/
def okUpdate (u : Update) : Bool :=
  match u.payload with
  | UVal.m _ =>
    u.field == "set" || u.field == "increment" || u.field == "append"
      || u.field == "prepend"
  | UVal.l _ => u.field == "delete"

/-- The merged wire object described kind by kind: each mapping slot is
the keyword payload with the same-kind update payloads folded in by dict
union, the delete slot is the keyword list followed by the concatenated
delete payloads. -/
def mergedData (sets incs apps pres : List (String × Val)) (dels : List String)
    (us : List Update) : UData :=
  udInit ((setsOfUpd us "set").foldl dunion sets)
    ((setsOfUpd us "increment").foldl dunion incs)
    ((setsOfUpd us "append").foldl dunion apps)
    ((setsOfUpd us "prepend").foldl dunion pres)
    (dels ++ (delsOfUpd us).flatten)

/-! ## Lemmas on the query algebra -/

theorem andList_eq_map (l : List Node) (y : Node) :
    andList l y = l.map (fun n => andOp n y) := by
  induction l with
  | nil => simp [andList]
  | cons n rest ih => simp [andList, ih]

theorem flattenList_eq_map (l : List Node) :
    flattenList l = l.map flatten := by
  induction l with
  | nil => simp [flattenList]
  | cons n rest ih => simp [flattenList, ih]

theorem filterAnd_of_queries (l : List Node) (h : ∀ x ∈ l, isQuery x = true) :
    filterAnd l = l := by
  induction l with
  | nil => simp [filterAnd]
  | cons n rest ih =>
    have hn := h n (by simp)
    have hrest : ∀ x ∈ rest, isQuery x = true := fun x hx => h x (by simp [hx])
    cases n with
    | query k v => simp [filterAnd, ih hrest]
    | and ns => simp [isQuery] at hn
    | or ns => simp [filterAnd, ih hrest]

theorem filterOr_append (l1 l2 : List Node) :
    filterOr (l1 ++ l2) = filterOr l1 ++ filterOr l2 := by
  induction l1 with
  | nil => simp [filterOr]
  | cons n rest ih => cases n <;> simp [filterOr, ih]

theorem filterOr_of_notOr (l : List Node) (h : ∀ x ∈ l, notOrB x = true) :
    filterOr l = l := by
  induction l with
  | nil => simp [filterOr]
  | cons n rest ih =>
    have hn := h n (by simp)
    have hrest : ∀ x ∈ rest, notOrB x = true := fun x hx => h x (by simp [hx])
    cases n with
    | query k v => simp [filterOr, ih hrest]
    | and ns => simp [filterOr, ih hrest]
    | or ns => simp [notOrB] at hn

theorem filterOr_map_or (l : List α) (f : α → List Node) :
    filterOr (l.map (fun x => Node.or (f x))) = (l.map f).flatten := by
  induction l with
  | nil => simp [filterOr]
  | cons a rest ih => simp [filterOr, ih]

theorem andOp_clauses (c1 c2 : Node) (h1 : isClauseW c1 = true)
    (h2 : isClauseW c2 = true) : andOp c2 c1 = mergeClause c1 c2 := by
  cases c1 with
  | query k v =>
    cases c2 with
    | query k2 v2 => simp [andOp, mergeClause, mkAnd, filterAnd, termsOf]
    | and ms =>
      have hq : ∀ x ∈ ms, isQuery x = true := by
        simpa [isClauseW, List.all_eq_true] using h2
      have hall : ∀ x ∈ ms ++ [Node.query k v], isQuery x = true := by
        intro x hx
        rcases List.mem_append.mp hx with hx | hx
        · exact hq x hx
        · simp at hx; simp [hx, isQuery]
      simp [andOp, mergeClause, mkAnd, termsOf, filterAnd_of_queries _ hall]
    | or ms => simp [isClauseW] at h2
  | and ns =>
    have hn : ∀ x ∈ ns, isQuery x = true := by
      simpa [isClauseW, List.all_eq_true] using h1
    cases c2 with
    | query k2 v2 =>
      have hall : ∀ x ∈ ns ++ [Node.query k2 v2], isQuery x = true := by
        intro x hx
        rcases List.mem_append.mp hx with hx | hx
        · exact hn x hx
        · simp at hx; simp [hx, isQuery]
      simp [andOp, mergeClause, mkAnd, termsOf, filterAnd_of_queries _ hall]
    | and ms =>
      have hm : ∀ x ∈ ms, isQuery x = true := by
        simpa [isClauseW, List.all_eq_true] using h2
      have hall : ∀ x ∈ ms ++ ns, isQuery x = true := by
        intro x hx
        rcases List.mem_append.mp hx with hx | hx
        · exact hm x hx
        · exact hn x hx
      simp [andOp, mergeClause, mkAnd, termsOf, filterAnd_of_queries _ hall]
    | or ms => simp [isClauseW] at h2
  | or ns => simp [isClauseW] at h1

theorem andOp_or_left (ns : List Node) (y : Node) :
    andOp (Node.or ns) y = mkOr (andList ns y) := by
  cases y <;> simp [andOp]

theorem andOp_clause_or (x : Node) (ms : List Node) (hx : isClauseW x = true) :
    andOp x (Node.or ms) = mkOr (andList ms x) := by
  cases x with
  | query k v => simp [andOp]
  | and ns => simp [andOp]
  | or ns => simp [isClauseW] at hx

theorem isQuery_ex (x : Node) (h : isQuery x = true) : ∃ k v, x = Node.query k v := by
  cases x with
  | query k v => exact ⟨k, v, rfl⟩
  | and ns => simp [isQuery] at h
  | or ns => simp [isQuery] at h

theorem isClauseW_of_isClause (x : Node) (h : isClause x = true) :
    isClauseW x = true := by
  cases x with
  | query k v => simp [isClauseW]
  | and ns =>
    simp [isClause] at h
    simp [isClauseW, List.all_eq_true]
    exact h.2
  | or ns => simp [isClause] at h

theorem isNF_of_isClause (x : Node) (h : isClause x = true) : isNF x = true := by
  cases x with
  | query k v => simp [isNF, isClause]
  | and ns => simpa [isNF] using h
  | or ns => simp [isClause] at h

theorem notOrB_of_isClause (x : Node) (h : isClause x = true) : notOrB x = true := by
  cases x <;> simp_all [isClause, notOrB]

theorem isNF_char (x : Node) (h : isNF x = true) :
    isClause x = true ∨ ∃ ms, x = Node.or ms ∧ (∀ c ∈ ms, isClause c = true) := by
  cases x with
  | query k v => left; simp [isClause]
  | and ns => left; simpa [isNF] using h
  | or ns =>
    right
    refine ⟨ns, rfl, ?_⟩
    simpa [isNF, List.all_eq_true] using h

theorem termsOf_queries (x : Node) (h : isClauseW x = true) :
    ∀ t ∈ termsOf x, isQuery t = true := by
  cases x with
  | query k v => intro t ht; simp [termsOf] at ht; simp [ht, isQuery]
  | and ns =>
    intro t ht
    simp [termsOf] at ht
    have hh : ∀ x ∈ ns, isQuery x = true := by
      simpa [isClauseW, List.all_eq_true] using h
    exact hh t ht
  | or ns => simp [isClauseW] at h

theorem termsOf_len (x : Node) (h : isClause x = true) :
    1 ≤ (termsOf x).length := by
  cases x with
  | query k v => simp [termsOf]
  | and ns =>
    simp [isClause] at h
    simp [termsOf]
    omega
  | or ns => simp [isClause] at h

theorem isClause_and_intro (l : List Node) (hlen : 2 ≤ l.length)
    (hq : ∀ x ∈ l, isQuery x = true) : isClause (Node.and l) = true := by
  simp [isClause, List.all_eq_true]
  exact ⟨hlen, hq⟩

theorem isClause_mergeClause (c1 c2 : Node) (h1 : isClause c1 = true)
    (h2 : isClause c2 = true) : isClause (mergeClause c1 c2) = true := by
  have w1 := isClauseW_of_isClause _ h1
  have w2 := isClauseW_of_isClause _ h2
  have l1 := termsOf_len _ h1
  have l2 := termsOf_len _ h2
  have q1 := termsOf_queries _ w1
  have q2 := termsOf_queries _ w2
  have happ : ∀ (a b : List Node), (∀ x ∈ a, isQuery x = true) →
      (∀ x ∈ b, isQuery x = true) → ∀ x ∈ a ++ b, isQuery x = true := by
    intro a b ha hb x hx
    rcases List.mem_append.mp hx with hx | hx
    · exact ha x hx
    · exact hb x hx
  cases c2 with
  | query k v =>
    cases c1 with
    | query k2 v2 =>
      rw [show mergeClause (Node.query k2 v2) (Node.query k v)
          = Node.and [Node.query k v, Node.query k2 v2] from by
            simp [mergeClause, termsOf]]
      apply isClause_and_intro
      · simp
      · intro x hx
        simp at hx
        rcases hx with rfl | rfl <;> simp [isQuery]
    | and ns =>
      rw [show mergeClause (Node.and ns) (Node.query k v)
          = Node.and (ns ++ [Node.query k v]) from by simp [mergeClause]]
      apply isClause_and_intro
      · simp [isClause] at h1
        simp
        omega
      · apply happ
        · simpa [termsOf] using q1
        · intro x hx
          simp at hx
          simp [hx, isQuery]
    | or ns => simp [isClause] at h1
  | and ms =>
    rw [show mergeClause c1 (Node.and ms) = Node.and (ms ++ termsOf c1) from by
        cases c1 <;> simp [mergeClause, termsOf]]
    apply isClause_and_intro
    · have e2 : (termsOf (Node.and ms)).length = ms.length := by simp [termsOf]
      rw [e2] at l2
      simp [List.length_append]
      omega
    · exact happ _ _ (by simpa [termsOf] using q2) q1
  | or ms => simp [isClause] at h2

theorem isClause_andOp (x y : Node) (hx : isClause x = true)
    (hy : isClause y = true) : isClause (andOp x y) = true := by
  rw [andOp_clauses y x (isClauseW_of_isClause _ hy) (isClauseW_of_isClause _ hx)]
  exact isClause_mergeClause y x hy hx

theorem all_isClause_filterOr (l : List Node) (h : ∀ z ∈ l, isNF z = true) :
    ∀ z ∈ filterOr l, isClause z = true := by
  induction l with
  | nil => simp [filterOr]
  | cons n rest ih =>
    have hn := h n (by simp)
    have hrest : ∀ z ∈ rest, isNF z = true := fun z hz => h z (by simp [hz])
    cases n with
    | query k v =>
      intro z hz
      rw [show filterOr (Node.query k v :: rest) = Node.query k v :: filterOr rest
          from by simp [filterOr]] at hz
      rcases List.mem_cons.mp hz with rfl | hz
      · simp [isClause]
      · exact ih hrest z hz
    | and ns =>
      intro z hz
      rw [show filterOr (Node.and ns :: rest) = Node.and ns :: filterOr rest
          from by simp [filterOr]] at hz
      rcases List.mem_cons.mp hz with rfl | hz
      · simpa [isNF] using hn
      · exact ih hrest z hz
    | or ns =>
      intro z hz
      rw [show filterOr (Node.or ns :: rest) = ns ++ filterOr rest
          from by simp [filterOr]] at hz
      rcases List.mem_append.mp hz with hz | hz
      · have hh : ∀ c ∈ ns, isClause c = true := by
          simpa [isNF, List.all_eq_true] using hn
        exact hh z hz
      · exact ih hrest z hz

theorem isNF_mkOr (l : List Node) (h : ∀ z ∈ l, isNF z = true) :
    isNF (mkOr l) = true := by
  simp only [mkOr, isNF, List.all_eq_true]
  exact all_isClause_filterOr l h

theorem isNF_andOp_clause_or (x : Node) (ms : List Node) (hx : isClause x = true)
    (hm : ∀ c ∈ ms, isClause c = true) : isNF (andOp x (Node.or ms)) = true := by
  rw [andOp_clause_or x ms (isClauseW_of_isClause _ hx), andList_eq_map]
  apply isNF_mkOr
  intro z hz
  rcases List.mem_map.mp hz with ⟨c2, hc2, rfl⟩
  exact isNF_of_isClause _ (isClause_andOp c2 x (hm c2 hc2) hx)

theorem isNF_andOp (x y : Node) (hx : isNF x = true) (hy : isNF y = true) :
    isNF (andOp x y) = true := by
  rcases isNF_char x hx with hxc | ⟨ns, rfl, hns⟩
  · rcases isNF_char y hy with hyc | ⟨ms, rfl, hms⟩
    · exact isNF_of_isClause _ (isClause_andOp x y hxc hyc)
    · exact isNF_andOp_clause_or x ms hxc hms
  · rw [andOp_or_left, andList_eq_map]
    apply isNF_mkOr
    intro z hz
    rcases List.mem_map.mp hz with ⟨c1, hc1, rfl⟩
    rcases isNF_char y hy with hyc | ⟨ms, rfl, hms⟩
    · exact isNF_of_isClause _ (isClause_andOp c1 y (hns c1 hc1) hyc)
    · exact isNF_andOp_clause_or c1 ms (hns c1 hc1) hms

theorem isNF_foldl (l : List Node) (c : Node) (hc : isNF c = true)
    (h : ∀ x ∈ l, isNF x = true) : isNF (l.foldl andOp c) = true := by
  induction l generalizing c with
  | nil => simpa using hc
  | cons n rest ih =>
    simp only [List.foldl_cons]
    exact ih (andOp c n) (isNF_andOp c n hc (h n (by simp)))
      (fun x hx => h x (by simp [hx]))

theorem flatten_and_eq (ns : List Node) :
    flatten (Node.and ns) = match ns.map flatten with
      | [] => mkOr []
      | c :: cs => cs.foldl andOp c := by
  rw [flatten, flattenList_eq_map]

theorem flatten_or_eq (ns : List Node) :
    flatten (Node.or ns) = mkOr (ns.map flatten) := by
  rw [flatten, flattenList_eq_map]

theorem flatten_isNF_aux : ∀ (b : Nat) (q : Node), sizeOf q ≤ b →
    isNF (flatten q) = true := by
  intro b
  induction b with
  | zero =>
    intro q h
    exfalso
    cases q <;> simp at h
  | succ b ih =>
    intro q hq
    cases q with
    | query k v => simp [flatten, isNF, isClause]
    | and ns =>
      have hns : ∀ x ∈ ns, isNF (flatten x) = true := by
        intro x hx
        apply ih
        have h1 : sizeOf x < sizeOf ns := List.sizeOf_lt_of_mem hx
        have h2 : sizeOf (Node.and ns) = 1 + sizeOf ns := by simp
        omega
      rw [flatten_and_eq]
      cases hmap : ns.map flatten with
      | nil => simp [isNF, mkOr, filterOr]
      | cons c cs =>
        have hall : ∀ z ∈ c :: cs, isNF z = true := by
          rw [← hmap]
          intro z hz
          rcases List.mem_map.mp hz with ⟨x, hx, rfl⟩
          exact hns x hx
        exact isNF_foldl cs c (hall c (by simp)) (fun x hx => hall x (by simp [hx]))
    | or ns =>
      have hns : ∀ x ∈ ns, isNF (flatten x) = true := by
        intro x hx
        apply ih
        have h1 : sizeOf x < sizeOf ns := List.sizeOf_lt_of_mem hx
        have h2 : sizeOf (Node.or ns) = 1 + sizeOf ns := by simp
        omega
      rw [flatten_or_eq]
      apply isNF_mkOr
      intro z hz
      rcases List.mem_map.mp hz with ⟨x, hx, rfl⟩
      exact hns x hx

theorem flatten_isNF (q : Node) : isNF (flatten q) = true :=
  flatten_isNF_aux (sizeOf q) q (Nat.le_refl _)

theorem map_flatten_queries (l : List Node) (h : ∀ x ∈ l, isQuery x = true) :
    l.map flatten = l := by
  induction l with
  | nil => simp
  | cons n rest ih =>
    have hn := h n (by simp)
    rcases isQuery_ex n hn with ⟨k, v, rfl⟩
    have hrest : ∀ x ∈ rest, isQuery x = true := fun x hx => h x (by simp [hx])
    simp [flatten, ih hrest]

theorem foldl_andOp_queries (qs : List Node) (l : List Node)
    (hl : ∀ x ∈ l, isQuery x = true) (hqs : ∀ x ∈ qs, isQuery x = true) :
    qs.foldl andOp (Node.and l) = Node.and (l ++ qs) := by
  induction qs generalizing l with
  | nil => simp
  | cons q rest ih =>
    have hq := hqs q (by simp)
    rcases isQuery_ex q hq with ⟨k, v, rfl⟩
    have hall : ∀ x ∈ l ++ [Node.query k v], isQuery x = true := by
      intro x hx
      rcases List.mem_append.mp hx with hx | hx
      · exact hl x hx
      · simp at hx; simp [hx, isQuery]
    simp only [List.foldl_cons]
    rw [show andOp (Node.and l) (Node.query k v) = Node.and (l ++ [Node.query k v])
        from by simp [andOp, mkAnd, filterAnd_of_queries _ hall]]
    rw [ih (l ++ [Node.query k v]) hall (fun x hx => hqs x (by simp [hx]))]
    simp

theorem flatten_clause_id (c : Node) (h : isClause c = true) : flatten c = c := by
  cases c with
  | query k v => simp [flatten]
  | and ns =>
    simp only [isClause, Bool.and_eq_true, decide_eq_true_eq, List.all_eq_true] at h
    obtain ⟨hlen, hq⟩ := h
    cases ns with
    | nil => simp at hlen
    | cons q1 tl =>
      cases tl with
      | nil => simp at hlen
      | cons q2 rest =>
        rcases isQuery_ex q1 (hq q1 (by simp)) with ⟨k1, v1, rfl⟩
        rcases isQuery_ex q2 (hq q2 (by simp)) with ⟨k2, v2, rfl⟩
        rw [flatten_and_eq]
        rw [map_flatten_queries _ hq]
        simp only [List.foldl_cons]
        rw [show andOp (Node.query k1 v1) (Node.query k2 v2)
            = Node.and [Node.query k1 v1, Node.query k2 v2]
            from by simp [andOp, mkAnd, filterAnd, isQuery]]
        rw [foldl_andOp_queries rest [Node.query k1 v1, Node.query k2 v2]
            (by intro x hx; simp at hx; rcases hx with rfl | rfl <;> simp [isQuery])
            (fun x hx => hq x (by simp [hx]))]
        simp
  | or ns => simp [isClause] at h

theorem flatten_nf (q : Node) (h : isNF q = true) : flatten q = q := by
  rcases isNF_char q h with hc | ⟨ms, rfl, hms⟩
  · exact flatten_clause_id q hc
  · rw [flatten_or_eq]
    have hmap : ms.map flatten = ms := by
      calc ms.map flatten = ms.map id :=
            List.map_congr_left (fun c hc => flatten_clause_id c (hms c hc))
        _ = ms := List.map_id ms
    rw [hmap, mkOr, filterOr_of_notOr ms (fun c hc => notOrB_of_isClause c (hms c hc))]

theorem mergeClause_notOr (c1 c2 : Node) : notOrB (mergeClause c1 c2) = true := by
  cases c2 <;> cases c1 <;> simp [mergeClause, notOrB]

theorem andOp_or_or (cs1 cs2 : List Node)
    (h1 : ∀ c ∈ cs1, isClauseW c = true) (h2 : ∀ c ∈ cs2, isClauseW c = true) :
    andOp (Node.or cs1) (Node.or cs2)
      = Node.or ((cs1.map (fun c1 => cs2.map (fun c2 => mergeClause c1 c2))).flatten) := by
  rw [andOp_or_left, andList_eq_map]
  have step : ∀ c1 ∈ cs1, andOp c1 (Node.or cs2)
      = Node.or (cs2.map (fun c2 => mergeClause c1 c2)) := by
    intro c1 hc1
    rw [andOp_clause_or c1 cs2 (h1 c1 hc1), andList_eq_map]
    have inner : cs2.map (fun n => andOp n c1) = cs2.map (fun c2 => mergeClause c1 c2) :=
      List.map_congr_left (fun c2 hc2 => andOp_clauses c1 c2 (h1 c1 hc1) (h2 c2 hc2))
    rw [inner, mkOr, filterOr_of_notOr]
    intro z hz
    rcases List.mem_map.mp hz with ⟨c2, hc2, rfl⟩
    exact mergeClause_notOr c1 c2
  rw [List.map_congr_left step, mkOr, filterOr_map_or]

/-! ## Lemmas on the update-instruction merge -/

theorem ulookup_udInit_set (s i a p dl) :
    ulookup (udInit s i a p dl) "set" = some (UVal.m s) := rfl

theorem ulookup_udInit_inc (s i a p dl) :
    ulookup (udInit s i a p dl) "increment" = some (UVal.m i) := rfl

theorem ulookup_udInit_app (s i a p dl) :
    ulookup (udInit s i a p dl) "append" = some (UVal.m a) := rfl

theorem ulookup_udInit_pre (s i a p dl) :
    ulookup (udInit s i a p dl) "prepend" = some (UVal.m p) := rfl

theorem ulookup_udInit_del (s i a p dl) :
    ulookup (udInit s i a p dl) "delete" = some (UVal.l dl) := rfl

theorem ulookup_udInit_none (s i a p dl) (f : String)
    (h1 : f ≠ "set") (h2 : f ≠ "increment") (h3 : f ≠ "append")
    (h4 : f ≠ "prepend") (h5 : f ≠ "delete") :
    ulookup (udInit s i a p dl) f = none := by
  simp [ulookup, udInit, Ne.symm h1, Ne.symm h2, Ne.symm h3, Ne.symm h4, Ne.symm h5]

theorem updStep_slot_set (s i a p dl) (u : Update) (hf : u.field = "set")
    (pm : List (String × Val)) (hp : u.payload = UVal.m pm) :
    updStep (udInit s i a p dl) u = Except.ok (udInit (dunion s pm) i a p dl) := by
  unfold updStep
  rw [hf, hp]
  rfl

theorem updStep_slot_inc (s i a p dl) (u : Update) (hf : u.field = "increment")
    (pm : List (String × Val)) (hp : u.payload = UVal.m pm) :
    updStep (udInit s i a p dl) u = Except.ok (udInit s (dunion i pm) a p dl) := by
  unfold updStep
  rw [hf, hp]
  rfl

theorem updStep_slot_app (s i a p dl) (u : Update) (hf : u.field = "append")
    (pm : List (String × Val)) (hp : u.payload = UVal.m pm) :
    updStep (udInit s i a p dl) u = Except.ok (udInit s i (dunion a pm) p dl) := by
  unfold updStep
  rw [hf, hp]
  rfl

theorem updStep_slot_pre (s i a p dl) (u : Update) (hf : u.field = "prepend")
    (pm : List (String × Val)) (hp : u.payload = UVal.m pm) :
    updStep (udInit s i a p dl) u = Except.ok (udInit s i a (dunion p pm) dl) := by
  unfold updStep
  rw [hf, hp]
  rfl

theorem updStep_slot_del (s i a p dl) (u : Update) (hf : u.field = "delete")
    (pl : List String) (hp : u.payload = UVal.l pl) :
    updStep (udInit s i a p dl) u = Except.ok (udInit s i a p (dl ++ pl)) := by
  unfold updStep
  rw [hf, hp]
  rfl

theorem updStep_err_of_not_ok (s i a p dl) (u : Update) (h : okUpdate u = false) :
    ∃ e, updStep (udInit s i a p dl) u = Except.error e := by
  cases hp : u.payload with
  | m pm =>
    have hne : u.field ≠ "set" ∧ u.field ≠ "increment" ∧ u.field ≠ "append"
        ∧ u.field ≠ "prepend" := by
      rw [okUpdate, hp] at h
      simp at h
      exact ⟨h.1.1.1, h.1.1.2, h.1.2, h.2⟩
    by_cases hd : u.field = "delete"
    · refine ⟨UErr.typeMismatch, ?_⟩
      unfold updStep
      rw [hd, hp]
      rfl
    · exact ⟨UErr.valueError, by
        unfold updStep
        rw [ulookup_udInit_none s i a p dl u.field hne.1 hne.2.1 hne.2.2.1 hne.2.2.2 hd]⟩
  | l pl =>
    have hne : u.field ≠ "delete" := by
      rw [okUpdate, hp] at h
      simpa using h
    by_cases h1 : u.field = "set"
    · exact ⟨UErr.typeMismatch, by unfold updStep; rw [h1, hp]; rfl⟩
    by_cases h2 : u.field = "increment"
    · exact ⟨UErr.typeMismatch, by unfold updStep; rw [h2, hp]; rfl⟩
    by_cases h3 : u.field = "append"
    · exact ⟨UErr.typeMismatch, by unfold updStep; rw [h3, hp]; rfl⟩
    by_cases h4 : u.field = "prepend"
    · exact ⟨UErr.typeMismatch, by unfold updStep; rw [h4, hp]; rfl⟩
    exact ⟨UErr.valueError, by
      unfold updStep
      rw [ulookup_udInit_none s i a p dl u.field h1 h2 h3 h4 hne]⟩

theorem ok_bind {α β : Type} (x : α) (g : α → Except UErr β) :
    (Except.ok x : Except UErr α) >>= g = g x := rfl

theorem err_bind {α β : Type} (e : UErr) (g : α → Except UErr β) :
    (Except.error e : Except UErr α) >>= g = Except.error e := rfl

theorem setsOfUpd_cons_hit (u : Update) (rest : List Update) (f : String)
    (hf : u.field = f) (pm) (hp : u.payload = UVal.m pm) :
    setsOfUpd (u :: rest) f = pm :: setsOfUpd rest f := by
  simp [setsOfUpd, List.filterMap_cons, hf, hp]

theorem setsOfUpd_cons_ne (u : Update) (rest : List Update) (f : String)
    (hf : u.field ≠ f) : setsOfUpd (u :: rest) f = setsOfUpd rest f := by
  simp [setsOfUpd, List.filterMap_cons, hf]

theorem setsOfUpd_cons_l (u : Update) (rest : List Update) (f : String)
    (pl) (hp : u.payload = UVal.l pl) :
    setsOfUpd (u :: rest) f = setsOfUpd rest f := by
  simp [setsOfUpd, List.filterMap_cons, hp]

theorem delsOfUpd_cons_hit (u : Update) (rest : List Update)
    (hf : u.field = "delete") (pl) (hp : u.payload = UVal.l pl) :
    delsOfUpd (u :: rest) = pl :: delsOfUpd rest := by
  simp [delsOfUpd, List.filterMap_cons, hf, hp]

theorem delsOfUpd_cons_ne (u : Update) (rest : List Update)
    (hf : u.field ≠ "delete") : delsOfUpd (u :: rest) = delsOfUpd rest := by
  simp [delsOfUpd, List.filterMap_cons, hf]

theorem delsOfUpd_cons_m (u : Update) (rest : List Update)
    (pm) (hp : u.payload = UVal.m pm) :
    delsOfUpd (u :: rest) = delsOfUpd rest := by
  simp [delsOfUpd, List.filterMap_cons, hp]

theorem foldlM_updStep_char (us : List Update) : ∀ (s i a p dl),
    (us.all okUpdate = true ∧
      List.foldlM updStep (udInit s i a p dl) us = Except.ok (udInit
        ((setsOfUpd us "set").foldl dunion s)
        ((setsOfUpd us "increment").foldl dunion i)
        ((setsOfUpd us "append").foldl dunion a)
        ((setsOfUpd us "prepend").foldl dunion p)
        (dl ++ (delsOfUpd us).flatten)))
    ∨ (us.all okUpdate = false ∧
      ∃ e, List.foldlM updStep (udInit s i a p dl) us = Except.error e) := by
  induction us with
  | nil =>
    intro s i a p dl
    left
    refine ⟨rfl, ?_⟩
    simp [setsOfUpd, delsOfUpd]
    rfl
  | cons u rest ih =>
    intro s i a p dl
    by_cases hok : okUpdate u = true
    · cases hp : u.payload with
      | m pm =>
        have hfield : u.field = "set" ∨ u.field = "increment" ∨ u.field = "append"
            ∨ u.field = "prepend" := by
          rw [okUpdate, hp] at hok
          simp at hok
          rcases hok with ((h | h) | h) | h
          · exact Or.inl h
          · exact Or.inr (Or.inl h)
          · exact Or.inr (Or.inr (Or.inl h))
          · exact Or.inr (Or.inr (Or.inr h))
        rcases hfield with hf | hf | hf | hf
        · rcases ih (dunion s pm) i a p dl with ⟨hall, hfold⟩ | ⟨hall, e, hfold⟩
          · left
            refine ⟨by simp [List.all_cons, hok, hall], ?_⟩
            rw [List.foldlM_cons, updStep_slot_set s i a p dl u hf pm hp, ok_bind, hfold]
            rw [setsOfUpd_cons_hit u rest "set" hf pm hp,
                setsOfUpd_cons_ne u rest "increment" (by simp [hf]),
                setsOfUpd_cons_ne u rest "append" (by simp [hf]),
                setsOfUpd_cons_ne u rest "prepend" (by simp [hf]),
                delsOfUpd_cons_ne u rest (by simp [hf]), List.foldl_cons]
          · right
            refine ⟨by simp [List.all_cons, hall], ?_⟩
            exact ⟨e, by
              rw [List.foldlM_cons, updStep_slot_set s i a p dl u hf pm hp, ok_bind, hfold]⟩
        · rcases ih s (dunion i pm) a p dl with ⟨hall, hfold⟩ | ⟨hall, e, hfold⟩
          · left
            refine ⟨by simp [List.all_cons, hok, hall], ?_⟩
            rw [List.foldlM_cons, updStep_slot_inc s i a p dl u hf pm hp, ok_bind, hfold]
            rw [setsOfUpd_cons_hit u rest "increment" hf pm hp,
                setsOfUpd_cons_ne u rest "set" (by simp [hf]),
                setsOfUpd_cons_ne u rest "append" (by simp [hf]),
                setsOfUpd_cons_ne u rest "prepend" (by simp [hf]),
                delsOfUpd_cons_ne u rest (by simp [hf]), List.foldl_cons]
          · right
            refine ⟨by simp [List.all_cons, hall], ?_⟩
            exact ⟨e, by
              rw [List.foldlM_cons, updStep_slot_inc s i a p dl u hf pm hp, ok_bind, hfold]⟩
        · rcases ih s i (dunion a pm) p dl with ⟨hall, hfold⟩ | ⟨hall, e, hfold⟩
          · left
            refine ⟨by simp [List.all_cons, hok, hall], ?_⟩
            rw [List.foldlM_cons, updStep_slot_app s i a p dl u hf pm hp, ok_bind, hfold]
            rw [setsOfUpd_cons_hit u rest "append" hf pm hp,
                setsOfUpd_cons_ne u rest "set" (by simp [hf]),
                setsOfUpd_cons_ne u rest "increment" (by simp [hf]),
                setsOfUpd_cons_ne u rest "prepend" (by simp [hf]),
                delsOfUpd_cons_ne u rest (by simp [hf]), List.foldl_cons]
          · right
            refine ⟨by simp [List.all_cons, hall], ?_⟩
            exact ⟨e, by
              rw [List.foldlM_cons, updStep_slot_app s i a p dl u hf pm hp, ok_bind, hfold]⟩
        · rcases ih s i a (dunion p pm) dl with ⟨hall, hfold⟩ | ⟨hall, e, hfold⟩
          · left
            refine ⟨by simp [List.all_cons, hok, hall], ?_⟩
            rw [List.foldlM_cons, updStep_slot_pre s i a p dl u hf pm hp, ok_bind, hfold]
            rw [setsOfUpd_cons_hit u rest "prepend" hf pm hp,
                setsOfUpd_cons_ne u rest "set" (by simp [hf]),
                setsOfUpd_cons_ne u rest "increment" (by simp [hf]),
                setsOfUpd_cons_ne u rest "append" (by simp [hf]),
                delsOfUpd_cons_ne u rest (by simp [hf]), List.foldl_cons]
          · right
            refine ⟨by simp [List.all_cons, hall], ?_⟩
            exact ⟨e, by
              rw [List.foldlM_cons, updStep_slot_pre s i a p dl u hf pm hp, ok_bind, hfold]⟩
      | l pl =>
        have hf : u.field = "delete" := by
          rw [okUpdate, hp] at hok
          simpa using hok
        rcases ih s i a p (dl ++ pl) with ⟨hall, hfold⟩ | ⟨hall, e, hfold⟩
        · left
          refine ⟨by simp [List.all_cons, hok, hall], ?_⟩
          rw [List.foldlM_cons, updStep_slot_del s i a p dl u hf pl hp, ok_bind, hfold]
          rw [delsOfUpd_cons_hit u rest hf pl hp,
              setsOfUpd_cons_l u rest "set" pl hp,
              setsOfUpd_cons_l u rest "increment" pl hp,
              setsOfUpd_cons_l u rest "append" pl hp,
              setsOfUpd_cons_l u rest "prepend" pl hp]
          simp [List.append_assoc]
        · right
          refine ⟨by simp [List.all_cons, hall], ?_⟩
          exact ⟨e, by
            rw [List.foldlM_cons, updStep_slot_del s i a p dl u hf pl hp, ok_bind, hfold]⟩
    · have hko : okUpdate u = false := by simpa using hok
      obtain ⟨e, he⟩ := updStep_err_of_not_ok s i a p dl u hko
      right
      refine ⟨by simp [List.all_cons, hko], ?_⟩
      exact ⟨e, by rw [List.foldlM_cons, he, err_bind]⟩

theorem updateItemData_char (sets incs apps pres dels) (us : List Update) (d : UData)
    (h : updateItemData sets incs apps pres dels us = Except.ok d) :
    us.all okUpdate = true ∧ d = mergedData sets incs apps pres dels us := by
  rcases foldlM_updStep_char us sets incs apps pres dels with ⟨hall, hfold⟩ | ⟨hall, e, hfold⟩
  · refine ⟨hall, ?_⟩
    unfold updateItemData at h
    rw [hfold] at h
    injection h with h2
    rw [← h2]
    rfl
  · unfold updateItemData at h
    rw [hfold] at h
    exact absurd h (by simp)

theorem updateItemData_of_all (sets incs apps pres dels) (us : List Update)
    (hok : us.all okUpdate = true) :
    updateItemData sets incs apps pres dels us
      = Except.ok (mergedData sets incs apps pres dels us) := by
  rcases foldlM_updStep_char us sets incs apps pres dels with ⟨hall, hfold⟩ | ⟨hall, e, hfold⟩
  · exact hfold
  · rw [hall] at hok
    exact absurd hok (by simp)

theorem filterMap_nil_of_ne {α : Type} (g : Update → Option α) (f : String)
    (hg : ∀ u x, g u = some x → u.field = f) :
    ∀ (us : List Update), (∀ u ∈ us, u.field ≠ f) → us.filterMap g = [] := by
  intro us
  induction us with
  | nil => simp
  | cons u rest ih =>
    intro h
    rw [List.filterMap_cons]
    cases hgu : g u with
    | none => exact ih (fun v hv => h v (by simp [hv]))
    | some x => exact absurd (hg u x hgu) (h u (by simp))

theorem filterMap_len_le_one {α : Type} (g : Update → Option α) (f : String)
    (hg : ∀ u x, g u = some x → u.field = f) (us : List Update)
    (hdist : us.Pairwise (fun a b => a.field ≠ b.field)) :
    (us.filterMap g).length ≤ 1 := by
  induction us with
  | nil => simp
  | cons u rest ih =>
    rw [List.pairwise_cons] at hdist
    rw [List.filterMap_cons]
    cases hgu : g u with
    | none => exact ih hdist.2
    | some x =>
      have hfu : u.field = f := hg u x hgu
      have hnil : rest.filterMap g = [] := by
        apply filterMap_nil_of_ne g f hg
        intro v hv hvf
        exact (hdist.1 v hv) (hfu.trans hvf.symm)
      rw [hnil]
      simp

theorem filterMap_perm_eq {α : Type} (g : Update → Option α) (f : String)
    (hg : ∀ u x, g u = some x → u.field = f) (us us2 : List Update)
    (hperm : us.Perm us2) (hdist : us.Pairwise (fun a b => a.field ≠ b.field)) :
    us.filterMap g = us2.filterMap g := by
  have hp := hperm.filterMap g
  have hlen := filterMap_len_le_one g f hg us hdist
  cases hfm : us.filterMap g with
  | nil =>
    rw [hfm] at hp
    exact (List.Perm.eq_nil hp.symm).symm
  | cons x tl =>
    rw [hfm] at hp hlen
    cases tl with
    | nil => exact List.Perm.singleton_eq hp
    | cons y tl2 => simp at hlen

theorem setsOfUpd_perm_eq (f : String) (us us2 : List Update)
    (hperm : us.Perm us2) (hdist : us.Pairwise (fun a b => a.field ≠ b.field)) :
    setsOfUpd us f = setsOfUpd us2 f := by
  apply filterMap_perm_eq _ f ?_ us us2 hperm hdist
  intro u x h
  by_cases hf : u.field = f
  · exact hf
  · simp [hf] at h

theorem delsOfUpd_perm_eq (us us2 : List Update)
    (hperm : us.Perm us2) (hdist : us.Pairwise (fun a b => a.field ≠ b.field)) :
    delsOfUpd us = delsOfUpd us2 := by
  apply filterMap_perm_eq _ "delete" ?_ us us2 hperm hdist
  intro u x h
  by_cases hf : u.field = "delete"
  · exact hf
  · simp [hf] at h

theorem all_okUpdate_perm (us us2 : List Update) (hperm : us.Perm us2)
    (h : us.all okUpdate = true) : us2.all okUpdate = true := by
  rw [List.all_eq_true] at h ⊢
  intro x hx
  exact h x (hperm.mem_iff.mpr hx)

theorem mergedData_perm_eq (sets incs apps pres dels) (us us2 : List Update)
    (hperm : us.Perm us2) (hdist : us.Pairwise (fun a b => a.field ≠ b.field)) :
    mergedData sets incs apps pres dels us = mergedData sets incs apps pres dels us2 := by
  unfold mergedData
  rw [setsOfUpd_perm_eq "set" us us2 hperm hdist,
      setsOfUpd_perm_eq "increment" us us2 hperm hdist,
      setsOfUpd_perm_eq "append" us us2 hperm hdist,
      setsOfUpd_perm_eq "prepend" us us2 hperm hdist,
      delsOfUpd_perm_eq us us2 hperm hdist]

/-! ## Lemmas on dict operations and `traverse` -/

theorem dlookup_map_self (m : Dict) (k : String) (v : Val)
    (h : m.any (fun p => p.1 = k) = true) :
    dlookup (m.map (fun p => if p.1 = k then (k, v) else p)) k = some v := by
  induction m with
  | nil => simp at h
  | cons q rest ih =>
    by_cases hq : q.1 = k
    · simp [dlookup, hq]
    · rw [List.map_cons, if_neg hq]
      rw [show dlookup (q :: rest.map (fun p => if p.1 = k then (k, v) else p)) k
          = dlookup (rest.map (fun p => if p.1 = k then (k, v) else p)) k
          from by simp [dlookup, hq]]
      simp only [List.any_cons, Bool.or_eq_true, decide_eq_true_eq] at h
      rcases h with h | h
      · exact absurd h hq
      · exact ih h

theorem dlookup_append_absent (m : Dict) (k : String) (v : Val)
    (h : m.any (fun p => p.1 = k) = false) :
    dlookup (m ++ [(k, v)]) k = some v := by
  induction m with
  | nil => simp [dlookup]
  | cons q rest ih =>
    simp only [List.any_cons, Bool.or_eq_false_iff] at h
    have hq : ¬ q.1 = k := of_decide_eq_false h.1
    rw [List.cons_append]
    rw [show dlookup (q :: (rest ++ [(k, v)])) k = dlookup (rest ++ [(k, v)]) k
        from by simp [dlookup, hq]]
    exact ih h.2

theorem dlookup_dset_self (m : Dict) (k : String) (v : Val) :
    dlookup (dset m k v) k = some v := by
  unfold dset
  by_cases h : m.any (fun p => p.1 = k) = true
  · rw [if_pos h]
    exact dlookup_map_self m k v h
  · rw [if_neg h]
    refine dlookup_append_absent m k v ?_
    cases hx : m.any (fun p => p.1 = k) with
    | true => exact absurd hx h
    | false => rfl

theorem dlookup_map_ne (m : Dict) (k k2 : String) (v : Val) (hne : k2 ≠ k) :
    dlookup (m.map (fun p => if p.1 = k then (k, v) else p)) k2 = dlookup m k2 := by
  induction m with
  | nil => simp
  | cons q rest ih =>
    by_cases hq : q.1 = k
    · have hq2 : ¬ q.1 = k2 := by rw [hq]; exact Ne.symm hne
      simp only [List.map_cons, if_pos hq]
      rw [show dlookup ((k, v) :: rest.map (fun p => if p.1 = k then (k, v) else p)) k2
          = dlookup (rest.map (fun p => if p.1 = k then (k, v) else p)) k2
          from by simp [dlookup, Ne.symm hne]]
      rw [show dlookup (q :: rest) k2 = dlookup rest k2 from by simp [dlookup, hq2]]
      exact ih
    · simp only [List.map_cons, if_neg hq]
      by_cases hq2 : q.1 = k2
      · simp [dlookup, hq2]
      · rw [show dlookup (q :: rest.map (fun p => if p.1 = k then (k, v) else p)) k2
            = dlookup (rest.map (fun p => if p.1 = k then (k, v) else p)) k2
            from by simp [dlookup, hq2]]
        rw [show dlookup (q :: rest) k2 = dlookup rest k2 from by simp [dlookup, hq2]]
        exact ih

theorem dlookup_append_ne (m : Dict) (k k2 : String) (v : Val) (hne : k2 ≠ k) :
    dlookup (m ++ [(k, v)]) k2 = dlookup m k2 := by
  induction m with
  | nil => simp [dlookup, Ne.symm hne]
  | cons q rest ih =>
    rw [List.cons_append]
    by_cases hq : q.1 = k2
    · simp [dlookup, hq]
    · rw [show dlookup (q :: (rest ++ [(k, v)])) k2 = dlookup (rest ++ [(k, v)]) k2
          from by simp [dlookup, hq]]
      rw [show dlookup (q :: rest) k2 = dlookup rest k2 from by simp [dlookup, hq]]
      exact ih

theorem dlookup_dset_ne (m : Dict) (k k2 : String) (v : Val) (hne : k2 ≠ k) :
    dlookup (dset m k v) k2 = dlookup m k2 := by
  unfold dset
  by_cases h : m.any (fun p => p.1 = k) = true
  · rw [if_pos h]
    exact dlookup_map_ne m k k2 v hne
  · rw [if_neg h]
    exact dlookup_append_ne m k k2 v hne

theorem dlookup_dpop_self (m : Dict) (k : String) :
    dlookup (dpop m k) k = none := by
  unfold dpop
  induction m with
  | nil => rfl
  | cons q rest ih =>
    rw [List.filter_cons]
    by_cases hq : q.1 = k
    · rw [show (decide (q.1 ≠ k)) = false from by simp [hq]]
      simpa using ih
    · rw [show (decide (q.1 ≠ k)) = true from by simp [hq]]
      rw [show (if true = true then q :: rest.filter (fun p => decide (p.1 ≠ k)) else
          rest.filter (fun p => decide (p.1 ≠ k))) = q :: rest.filter (fun p => decide (p.1 ≠ k))
          from by simp]
      rw [show dlookup (q :: rest.filter (fun p => decide (p.1 ≠ k))) k
          = dlookup (rest.filter (fun p => decide (p.1 ≠ k))) k from by simp [dlookup, hq]]
      exact ih

theorem dlookup_dpop_ne (m : Dict) (k k2 : String) (hne : k2 ≠ k) :
    dlookup (dpop m k) k2 = dlookup m k2 := by
  unfold dpop
  induction m with
  | nil => rfl
  | cons q rest ih =>
    rw [List.filter_cons]
    by_cases hq : q.1 = k
    · have hq2 : ¬ q.1 = k2 := by rw [hq]; exact Ne.symm hne
      rw [show (decide (q.1 ≠ k)) = false from by simp [hq]]
      rw [show dlookup (q :: rest) k2 = dlookup rest k2 from by simp [dlookup, hq2]]
      simpa using ih
    · rw [show (decide (q.1 ≠ k)) = true from by simp [hq]]
      rw [show (if true = true then q :: rest.filter (fun p => decide (p.1 ≠ k)) else
          rest.filter (fun p => decide (p.1 ≠ k))) = q :: rest.filter (fun p => decide (p.1 ≠ k))
          from by simp]
      by_cases hq2 : q.1 = k2
      · simp [dlookup, hq2]
      · rw [show dlookup (q :: rest.filter (fun p => decide (p.1 ≠ k))) k2
            = dlookup (rest.filter (fun p => decide (p.1 ≠ k))) k2 from by simp [dlookup, hq2]]
        rw [show dlookup (q :: rest) k2 = dlookup rest k2 from by simp [dlookup, hq2]]
        exact ih

theorem any_of_dlookup_some (m : Dict) (k : String) (w : Val)
    (h : dlookup m k = some w) : m.any (fun p => p.1 = k) = true := by
  induction m with
  | nil => simp [dlookup] at h
  | cons q rest ih =>
    simp only [List.any_cons, Bool.or_eq_true, decide_eq_true_eq]
    by_cases hq : q.1 = k
    · exact Or.inl hq
    · right
      apply ih
      rw [show dlookup (q :: rest) k = dlookup rest k from by simp [dlookup, hq]] at h
      exact h

theorem any_false_of_dlookup_none (m : Dict) (k : String)
    (h : dlookup m k = none) : m.any (fun p => p.1 = k) = false := by
  induction m with
  | nil => simp
  | cons q rest ih =>
    by_cases hq : q.1 = k
    · simp [dlookup, hq] at h
    · rw [show dlookup (q :: rest) k = dlookup rest k from by simp [dlookup, hq]] at h
      simp only [List.any_cons, Bool.or_eq_false_iff, decide_eq_false_iff_not]
      exact ⟨hq, by rw [ih h]⟩

theorem contextAt_nil_dict (rest : List String) : contextAt [] rest = some [] := by
  induction rest with
  | nil => rfl
  | cons k tl ih =>
    rw [show contextAt [] (k :: tl) = contextAt [] tl from by rw [contextAt]; rfl]
    exact ih

theorem navigable_nil_dict (rest : List String) : navigable [] rest = true := by
  cases rest with
  | nil => rfl
  | cons k tl => rw [navigable]; rfl

theorem applyAt_cons_dict (m : Dict) (k : String) (rest : List String)
    (op : Dict → Except UErr Dict) (inner : Dict)
    (hlk : dlookup m k = some (Val.vdict inner)) :
    applyAt m (k :: rest) op
      = (applyAt inner rest op).map (fun inner2 => dset m k (Val.vdict inner2)) := by
  rw [applyAt, hlk]

theorem applyAt_cons_none (m : Dict) (k : String) (rest : List String)
    (op : Dict → Except UErr Dict) (hlk : dlookup m k = none) :
    applyAt m (k :: rest) op
      = (applyAt [] rest op).map (fun inner2 => m ++ [(k, Val.vdict inner2)]) := by
  rw [applyAt, hlk]

theorem contextAt_cons_dict (m : Dict) (k : String) (rest : List String) (inner : Dict)
    (hlk : dlookup m k = some (Val.vdict inner)) :
    contextAt m (k :: rest) = contextAt inner rest := by
  rw [contextAt, hlk]

theorem contextAt_cons_none (m : Dict) (k : String) (rest : List String)
    (hlk : dlookup m k = none) :
    contextAt m (k :: rest) = contextAt [] rest := by
  rw [contextAt, hlk]

theorem navigable_cons_dict (m : Dict) (k : String) (rest : List String) (inner : Dict)
    (hlk : dlookup m k = some (Val.vdict inner)) :
    navigable m (k :: rest) = navigable inner rest := by
  rw [navigable, hlk]

theorem replaceAt_cons_dict (m : Dict) (k : String) (rest : List String) (ctx2 inner : Dict)
    (hlk : dlookup m k = some (Val.vdict inner)) :
    replaceAt m (k :: rest) ctx2 = dset m k (Val.vdict (replaceAt inner rest ctx2)) := by
  rw [replaceAt, hlk]

theorem replaceAt_cons_none (m : Dict) (k : String) (rest : List String) (ctx2 : Dict)
    (hlk : dlookup m k = none) :
    replaceAt m (k :: rest) ctx2 = m ++ [(k, Val.vdict (replaceAt [] rest ctx2))] := by
  rw [replaceAt, hlk]

theorem navigable_not_dict (m : Dict) (k : String) (rest : List String) (v : Val)
    (hlk : dlookup m k = some v) (hv : ∀ inner, v ≠ Val.vdict inner) :
    navigable m (k :: rest) = false := by
  rw [navigable, hlk]
  cases v with
  | vdict inner => exact absurd rfl (hv inner)
  | vnull => rfl
  | vbool b => rfl
  | vint n => rfl
  | vstr s => rfl
  | vlist xs => rfl

theorem applyAt_master (dirs : List String) :
    ∀ (m : Dict) (op : Dict → Except UErr Dict), navigable m dirs = true →
    ∃ ctx, contextAt m dirs = some ctx ∧
      applyAt m dirs op = (op ctx).map (replaceAt m dirs) := by
  induction dirs with
  | nil =>
    intro m op _
    refine ⟨m, rfl, ?_⟩
    rw [show applyAt m [] op = op m from rfl]
    cases hop : op m with
    | ok c => rfl
    | error e => rfl
  | cons k rest ih =>
    intro m op hnav
    cases hlk : dlookup m k with
    | some v =>
      cases v with
      | vdict inner =>
        have hnav2 : navigable inner rest = true := by
          rw [navigable_cons_dict m k rest inner hlk] at hnav
          exact hnav
        obtain ⟨ctx, hctx, happ⟩ := ih inner op hnav2
        refine ⟨ctx, ?_, ?_⟩
        · rw [contextAt_cons_dict m k rest inner hlk]
          exact hctx
        · rw [applyAt_cons_dict m k rest op inner hlk, happ]
          cases op ctx with
          | ok c =>
            rw [show (Except.ok c : Except UErr Dict).map (replaceAt inner rest)
                = Except.ok (replaceAt inner rest c) from rfl]
            rw [show ((Except.ok (replaceAt inner rest c) : Except UErr Dict)).map
                (fun inner2 => dset m k (Val.vdict inner2))
                = Except.ok (dset m k (Val.vdict (replaceAt inner rest c))) from rfl]
            rw [show (Except.ok c : Except UErr Dict).map (replaceAt m (k :: rest))
                = Except.ok (replaceAt m (k :: rest) c) from rfl]
            rw [replaceAt_cons_dict m k rest c inner hlk]
          | error e => rfl
      | vnull =>
        rw [navigable_not_dict m k rest _ hlk (by intro inner h; cases h)] at hnav
        exact absurd hnav (by simp)
      | vbool b =>
        rw [navigable_not_dict m k rest _ hlk (by intro inner h; cases h)] at hnav
        exact absurd hnav (by simp)
      | vint n =>
        rw [navigable_not_dict m k rest _ hlk (by intro inner h; cases h)] at hnav
        exact absurd hnav (by simp)
      | vstr s =>
        rw [navigable_not_dict m k rest _ hlk (by intro inner h; cases h)] at hnav
        exact absurd hnav (by simp)
      | vlist xs =>
        rw [navigable_not_dict m k rest _ hlk (by intro inner h; cases h)] at hnav
        exact absurd hnav (by simp)
    | none =>
      obtain ⟨ctx, hctx, happ⟩ := ih [] op (navigable_nil_dict rest)
      refine ⟨ctx, ?_, ?_⟩
      · rw [contextAt_cons_none m k rest hlk]
        exact hctx
      · rw [applyAt_cons_none m k rest op hlk, happ]
        cases op ctx with
        | ok c =>
          rw [show (Except.ok c : Except UErr Dict).map (replaceAt [] rest)
              = Except.ok (replaceAt [] rest c) from rfl]
          rw [show ((Except.ok (replaceAt [] rest c) : Except UErr Dict)).map
              (fun inner2 => m ++ [(k, Val.vdict inner2)])
              = Except.ok (m ++ [(k, Val.vdict (replaceAt [] rest c))]) from rfl]
          rw [show (Except.ok c : Except UErr Dict).map (replaceAt m (k :: rest))
              = Except.ok (replaceAt m (k :: rest) c) from rfl]
          rw [replaceAt_cons_none m k rest c hlk]
        | error e => rfl

theorem contextAt_replaceAt (dirs : List String) :
    ∀ (m ctx2 : Dict), navigable m dirs = true →
    contextAt (replaceAt m dirs ctx2) dirs = some ctx2 := by
  induction dirs with
  | nil => intro m ctx2 _; rfl
  | cons k rest ih =>
    intro m ctx2 hnav
    cases hlk : dlookup m k with
    | some v =>
      cases v with
      | vdict inner =>
        have hnav2 : navigable inner rest = true := by
          rw [navigable_cons_dict m k rest inner hlk] at hnav
          exact hnav
        rw [replaceAt_cons_dict m k rest ctx2 inner hlk]
        rw [contextAt_cons_dict _ k rest (replaceAt inner rest ctx2)
            (dlookup_dset_self m k (Val.vdict (replaceAt inner rest ctx2)))]
        exact ih inner ctx2 hnav2
      | vnull =>
        rw [navigable_not_dict m k rest _ hlk (by intro inner h; cases h)] at hnav
        exact absurd hnav (by simp)
      | vbool b =>
        rw [navigable_not_dict m k rest _ hlk (by intro inner h; cases h)] at hnav
        exact absurd hnav (by simp)
      | vint n =>
        rw [navigable_not_dict m k rest _ hlk (by intro inner h; cases h)] at hnav
        exact absurd hnav (by simp)
      | vstr s =>
        rw [navigable_not_dict m k rest _ hlk (by intro inner h; cases h)] at hnav
        exact absurd hnav (by simp)
      | vlist xs =>
        rw [navigable_not_dict m k rest _ hlk (by intro inner h; cases h)] at hnav
        exact absurd hnav (by simp)
    | none =>
      rw [replaceAt_cons_none m k rest ctx2 hlk]
      have habs : m.any (fun p => p.1 = k) = false := any_false_of_dlookup_none m k hlk
      rw [contextAt_cons_dict _ k rest (replaceAt [] rest ctx2)
          (dlookup_append_absent m k (Val.vdict (replaceAt [] rest ctx2)) habs)]
      exact ih [] ctx2 (navigable_nil_dict rest)

theorem incOp_absent (fk : String) (v : Val) (ctx : Dict)
    (h : dlookup ctx fk = none) : incOp fk v ctx = Except.ok ctx := by
  unfold incOp
  rw [h]

theorem incOp_present (fk : String) (v : Val) (ctx : Dict) (orig : Val)
    (h : dlookup ctx fk = some orig) :
    incOp fk v ctx = (match toIntQ v with
      | none => Except.error UErr.typeMismatch
      | some dv => match toIntQ orig with
        | none => Except.error UErr.typeMismatch
        | some ov => Except.ok (dset ctx fk (Val.vint (ov + dv)))) := by
  unfold incOp
  rw [h]

theorem delOp_missing (fk : String) (ctx : Dict)
    (h : dlookup ctx fk = none) : delOp fk ctx = Except.error UErr.pathNotFound := by
  unfold delOp
  rw [any_false_of_dlookup_none ctx fk h]
  rfl

theorem delOp_found (fk : String) (ctx : Dict) (w : Val)
    (h : dlookup ctx fk = some w) : delOp fk ctx = Except.ok (dpop ctx fk) := by
  unfold delOp
  rw [any_of_dlookup_some ctx fk w h]
  rfl

theorem resolve_eq_of_contextAt (m : Dict) (key : String) (ctx : Dict)
    (hctx : contextAt m (pathDirs key) = some ctx) :
    resolve m key = dlookup ctx (pathLeaf key) := by
  unfold resolve
  rw [hctx]
  rfl

/-- C7: the claim holds — for a path whose existing intermediate segments
are nested mappings (the spec's path-resolution precondition, §4.3), an
`Increment` instruction on an absent leaf succeeds and leaves the leaf
absent (a no-op at that path); on a present non-numeric leaf it fails with
the `TypeMismatch` error kind (the `AssertionError` of
`assert isinstance(orig, int)`); on a numeric leaf it adds the delta,
where numeric means Python `int` including `bool`. -/
theorem c7_increment_semantics (m : Dict) (key : String) (v : Val)
    (hnav : navigable m (pathDirs key) = true) :
    (resolve m key = none →
      ∃ d, applyIncPair m key v = Except.ok d ∧ resolve d key = none)
    ∧ (∀ w, resolve m key = some w → toIntQ w = none →
        applyIncPair m key v = Except.error UErr.typeMismatch)
    ∧ (∀ w ow dv, resolve m key = some w → toIntQ w = some ow → toIntQ v = some dv →
        ∃ d, applyIncPair m key v = Except.ok d
          ∧ resolve d key = some (Val.vint (ow + dv))) := by
  obtain ⟨ctx, hctx, happ⟩ := applyAt_master (pathDirs key) m (incOp (pathLeaf key) v) hnav
  have hres := resolve_eq_of_contextAt m key ctx hctx
  refine ⟨?_, ?_, ?_⟩
  · intro hnone
    rw [hres] at hnone
    have hop : incOp (pathLeaf key) v ctx = Except.ok ctx :=
      incOp_absent (pathLeaf key) v ctx hnone
    refine ⟨replaceAt m (pathDirs key) ctx, ?_, ?_⟩
    · unfold applyIncPair
      rw [happ, hop]
      rfl
    · rw [resolve_eq_of_contextAt _ key ctx (contextAt_replaceAt (pathDirs key) m ctx hnav)]
      exact hnone
  · intro w hw hti
    rw [hres] at hw
    have hop : incOp (pathLeaf key) v ctx = Except.error UErr.typeMismatch := by
      rw [incOp_present (pathLeaf key) v ctx w hw]
      cases htv : toIntQ v with
      | none => rfl
      | some dv => rw [hti]
    unfold applyIncPair
    rw [happ, hop]
    rfl
  · intro w ow dv hw how hdv
    rw [hres] at hw
    have hop : incOp (pathLeaf key) v ctx
        = Except.ok (dset ctx (pathLeaf key) (Val.vint (ow + dv))) := by
      rw [incOp_present (pathLeaf key) v ctx w hw, hdv, how]
    refine ⟨replaceAt m (pathDirs key) (dset ctx (pathLeaf key) (Val.vint (ow + dv))), ?_, ?_⟩
    · unfold applyIncPair
      rw [happ, hop]
      rfl
    · rw [resolve_eq_of_contextAt _ key _ (contextAt_replaceAt (pathDirs key) m _ hnav)]
      exact dlookup_dset_self ctx (pathLeaf key) (Val.vint (ow + dv))

/-- Closed witness for the C7 theorem at concrete inputs: on snapshot
`{"x": 1}`, Increment of the absent leaf `"missing"` by 5 is a no-op, and
on snapshot `{"s": "hello"}`, Increment of the string leaf `"s"` fails
with `TypeMismatch`. -/
theorem c7_increment_semantics_witness :
    (∃ d, applyIncPair [("x", Val.vint 1)] "missing" (Val.vint 5) = Except.ok d
      ∧ resolve d "missing" = none)
    ∧ applyIncPair [("s", Val.vstr "hello")] "s" (Val.vint 5)
        = Except.error UErr.typeMismatch := by
  constructor
  · exact (c7_increment_semantics [("x", Val.vint 1)] "missing" (Val.vint 5) rfl).1 rfl
  · exact (c7_increment_semantics [("s", Val.vstr "hello")] "s" (Val.vint 5) rfl).2.1
      (Val.vstr "hello") rfl rfl

/-- C8: the claim holds — for a path whose existing intermediate segments
are nested mappings, a `Delete` instruction on an absent leaf fails with
the `PathNotFound` error kind (the `KeyError` of `dict.pop`); on a present
leaf it removes exactly that leaf key from its containing dict (the other
keys of that dict keep their values), leaving the path absent. -/
theorem c8_delete_semantics (m : Dict) (key : String)
    (hnav : navigable m (pathDirs key) = true) :
    (resolve m key = none → applyDelPath m key = Except.error UErr.pathNotFound)
    ∧ (∀ w, resolve m key = some w →
      ∃ ctx, contextAt m (pathDirs key) = some ctx
        ∧ applyDelPath m key
            = Except.ok (replaceAt m (pathDirs key) (dpop ctx (pathLeaf key)))
        ∧ resolve (replaceAt m (pathDirs key) (dpop ctx (pathLeaf key))) key = none
        ∧ (∀ k2, k2 ≠ pathLeaf key →
            dlookup (dpop ctx (pathLeaf key)) k2 = dlookup ctx k2)) := by
  obtain ⟨ctx, hctx, happ⟩ := applyAt_master (pathDirs key) m (delOp (pathLeaf key)) hnav
  have hres := resolve_eq_of_contextAt m key ctx hctx
  constructor
  · intro hnone
    rw [hres] at hnone
    unfold applyDelPath
    rw [happ, delOp_missing (pathLeaf key) ctx hnone]
    rfl
  · intro w hw
    rw [hres] at hw
    refine ⟨ctx, hctx, ?_, ?_, ?_⟩
    · unfold applyDelPath
      rw [happ, delOp_found (pathLeaf key) ctx w hw]
      rfl
    · rw [resolve_eq_of_contextAt _ key _ (contextAt_replaceAt (pathDirs key) m _ hnav)]
      exact dlookup_dpop_self ctx (pathLeaf key)
    · intro k2 hk2
      exact dlookup_dpop_ne ctx (pathLeaf key) k2 hk2

/-- Closed witness for the C8 theorem at concrete inputs: on snapshot
`{"count": 3, "tags": ["a"]}`, Delete of `"tags"` removes exactly that
key, and Delete of the absent `"missing"` fails with `PathNotFound`. -/
theorem c8_delete_semantics_witness :
    applyDelPath [("count", Val.vint 3), ("tags", Val.vlist [Val.vstr "a"])] "missing"
      = Except.error UErr.pathNotFound
    ∧ (∃ ctx, contextAt [("count", Val.vint 3), ("tags", Val.vlist [Val.vstr "a"])]
          (pathDirs "tags") = some ctx
        ∧ applyDelPath [("count", Val.vint 3), ("tags", Val.vlist [Val.vstr "a"])] "tags"
            = Except.ok (replaceAt [("count", Val.vint 3), ("tags", Val.vlist [Val.vstr "a"])]
                (pathDirs "tags") (dpop ctx (pathLeaf "tags")))
        ∧ resolve (replaceAt [("count", Val.vint 3), ("tags", Val.vlist [Val.vstr "a"])]
            (pathDirs "tags") (dpop ctx (pathLeaf "tags"))) "tags" = none
        ∧ (∀ k2, k2 ≠ pathLeaf "tags" →
            dlookup (dpop ctx (pathLeaf "tags")) k2 = dlookup ctx k2)) := by
  constructor
  · exact (c8_delete_semantics [("count", Val.vint 3), ("tags", Val.vlist [Val.vstr "a"])]
      "missing" rfl).1 rfl
  · exact (c8_delete_semantics [("count", Val.vint 3), ("tags", Val.vlist [Val.vstr "a"])]
      "tags" rfl).2 (Val.vlist [Val.vstr "a"]) rfl

/-- C9: the claim holds — whenever `Client.update_item` transmits (i.e.
the merge raises no exception), the merged instruction set is an object
with exactly the five keys set, increment, append, prepend, delete, in
that order; each mapping slot is the keyword payload with the same-kind
update payloads merged in by mapping union (`{**left, **right}`), and the
delete slot is the keyword list concatenated with the delete payloads. -/
theorem c9_wire_shape (sets incs apps pres : List (String × Val)) (dels : List String)
    (us : List Update) (d : UData)
    (h : updateItemData sets incs apps pres dels us = Except.ok d) :
    d.map Prod.fst = ["set", "increment", "append", "prepend", "delete"]
    ∧ ulookup d "set" = some (UVal.m ((setsOfUpd us "set").foldl dunion sets))
    ∧ ulookup d "increment" = some (UVal.m ((setsOfUpd us "increment").foldl dunion incs))
    ∧ ulookup d "append" = some (UVal.m ((setsOfUpd us "append").foldl dunion apps))
    ∧ ulookup d "prepend" = some (UVal.m ((setsOfUpd us "prepend").foldl dunion pres))
    ∧ ulookup d "delete" = some (UVal.l (dels ++ (delsOfUpd us).flatten)) := by
  obtain ⟨hall, hd⟩ := updateItemData_char sets incs apps pres dels us d h
  subst hd
  exact ⟨rfl, rfl, rfl, rfl, rfl, rfl⟩

/-- Closed witness for the C9 theorem: keyword `set={"a":1}`,
`delete=["y"]` together with a set update `{"b":2}` and a delete update
`["x"]` transmit the five-key object with the merged payloads. -/
theorem c9_wire_shape_witness :
    (updateItemData [("a", Val.vint 1)] [] [] [] ["y"]
        [Update.mk "set" (UVal.m [("b", Val.vint 2)]), Update.mk "delete" (UVal.l ["x"])]
      = Except.ok [("set", UVal.m [("a", Val.vint 1), ("b", Val.vint 2)]),
          ("increment", UVal.m []), ("append", UVal.m []), ("prepend", UVal.m []),
          ("delete", UVal.l ["y", "x"])])
    ∧ ([("set", UVal.m [("a", Val.vint 1), ("b", Val.vint 2)]),
          ("increment", UVal.m []), ("append", UVal.m []), ("prepend", UVal.m []),
          ("delete", UVal.l ["y", "x"])] : UData).map Prod.fst
        = ["set", "increment", "append", "prepend", "delete"] := by
  refine ⟨rfl, ?_⟩
  exact (c9_wire_shape [("a", Val.vint 1)] [] [] [] ["y"]
    [Update.mk "set" (UVal.m [("b", Val.vint 2)]), Update.mk "delete" (UVal.l ["x"])]
    _ rfl).1

/-- C4: the claim holds — the reconciliation loops of `Base.update` run in
the fixed textual order set, increment, append, prepend, delete over the
merged five-slot object, so when the caller supplies instructions of
pairwise distinct kinds, any permutation of the caller order produces the
same merged wire object and the same reconciled snapshot. -/
theorem c4_caller_order_independence (sets incs apps pres : List (String × Val))
    (dels : List String) (us us2 : List Update) (raw : Dict)
    (hperm : us.Perm us2)
    (hdist : us.Pairwise (fun a b => a.field ≠ b.field))
    (hok : us.all okUpdate = true) :
    updateItemData sets incs apps pres dels us = updateItemData sets incs apps pres dels us2
    ∧ updateFlow raw sets incs apps pres dels us
        = updateFlow raw sets incs apps pres dels us2 := by
  have h1 := updateItemData_of_all sets incs apps pres dels us hok
  have h2 := updateItemData_of_all sets incs apps pres dels us2
    (all_okUpdate_perm us us2 hperm hok)
  have h3 := mergedData_perm_eq sets incs apps pres dels us us2 hperm hdist
  have he : updateItemData sets incs apps pres dels us
      = updateItemData sets incs apps pres dels us2 := by
    rw [h1, h2, h3]
  refine ⟨he, ?_⟩
  unfold updateFlow
  rw [he]

/-- Closed witness for the C4 theorem: from snapshot
`{"count": 1, "tags": ["a"]}`, the instructions Increment(count: 2),
Append(tags: ["b"]), Delete(["tags"]) yield `{"count": 3}` both in that
caller order and reversed. -/
theorem c4_caller_order_independence_witness :
    updateFlow [("count", Val.vint 1), ("tags", Val.vlist [Val.vstr "a"])] [] [] [] [] []
        [Update.mk "increment" (UVal.m [("count", Val.vint 2)]),
         Update.mk "append" (UVal.m [("tags", Val.vlist [Val.vstr "b"])]),
         Update.mk "delete" (UVal.l ["tags"])]
      = updateFlow [("count", Val.vint 1), ("tags", Val.vlist [Val.vstr "a"])] [] [] [] [] []
        [Update.mk "delete" (UVal.l ["tags"]),
         Update.mk "append" (UVal.m [("tags", Val.vlist [Val.vstr "b"])]),
         Update.mk "increment" (UVal.m [("count", Val.vint 2)])]
    ∧ updateFlow [("count", Val.vint 1), ("tags", Val.vlist [Val.vstr "a"])] [] [] [] [] []
        [Update.mk "increment" (UVal.m [("count", Val.vint 2)]),
         Update.mk "append" (UVal.m [("tags", Val.vlist [Val.vstr "b"])]),
         Update.mk "delete" (UVal.l ["tags"])]
      = Except.ok [("count", Val.vint 3)] := by
  constructor
  · exact (c4_caller_order_independence [] [] [] [] []
      [Update.mk "increment" (UVal.m [("count", Val.vint 2)]),
       Update.mk "append" (UVal.m [("tags", Val.vlist [Val.vstr "b"])]),
       Update.mk "delete" (UVal.l ["tags"])]
      [Update.mk "delete" (UVal.l ["tags"]),
       Update.mk "append" (UVal.m [("tags", Val.vlist [Val.vstr "b"])]),
       Update.mk "increment" (UVal.m [("count", Val.vint 2)])]
      [("count", Val.vint 1), ("tags", Val.vlist [Val.vstr "a"])]
      ((List.reverse_perm _).symm) (by decide) rfl).2
  · rfl

/-- C5: the claim holds — normalization (`_flatten`) is idempotent: for
every expression, flattening an already-flattened tree returns an equal
structure. -/
theorem c5_normalize_idempotent (q : Node) : flatten (flatten q) = flatten q :=
  flatten_nf (flatten q) (flatten_isNF q)

/-- C1: code bug — the claim (and the spec, §3 and §4.3) says the prior
Snapshot is never mutated, but `Base.update` runs `new_self = type(self)()`
followed by `new_self.raw = self.raw` (base.py lines 144-145), so the two
objects share one dict and the reconciliation loops mutate it in place.
Evaluated on prior snapshot `{"count": 1}` with confirmed merged
instruction set `{"set": {"count": 2}}`: after the call the prior holder's
mapping is `{"count": 2}`, not the original `{"count": 1}`. -/
theorem c1_prior_snapshot_mutated :
    baseUpdateRun (BaseObj.mk [("count", Val.vint 1)])
        (udInit [("count", Val.vint 2)] [] [] [] [])
      = Except.ok (BaseObj.mk [("count", Val.vint 2)], BaseObj.mk [("count", Val.vint 2)])
    ∧ [("count", Val.vint 2)] ≠ [("count", Val.vint 1)] := by
  constructor
  · rfl
  · intro h
    simp at h

/-- C2 counterexample: the claim says an empty Conjunction normalizes to a
Disjunction with a single empty Conjunction, serializing to `[{}]`; the
code's `And()._flatten()` hits `return final or Or()` with `final = None`
and yields `Or()` with no children, which serializes to `[]`. -/
theorem c2_counterexample :
    deta_query (Node.and []) = some []
    ∧ deta_query (Node.and []) ≠ some [([] : Dict)] := by
  have h : deta_query (Node.and []) = some [] := by
    simp [deta_query, flatten, flattenList, mkOr, filterOr, List.mapM, List.mapM.loop]
  refine ⟨h, ?_⟩
  rw [h]
  intro hc
  simp at hc

/-- C2 (amended): an empty Conjunction normalizes to an empty Disjunction
(no clauses at all), which serializes to an empty clause list `[]`. -/
theorem c2_empty_conjunction_normal_form :
    flatten (Node.and []) = Node.or []
    ∧ deta_query (Node.and []) = some [] := by
  constructor
  · simp [flatten, flattenList, mkOr, filterOr]
  · simp [deta_query, flatten, flattenList, mkOr, filterOr, List.mapM, List.mapM.loop]

/-- C3 counterexample: the claim says the AND-merge of normalized
disjunctions `D1` and `D2` builds `Conjunction(c1.terms ++ c2.terms)`;
merging `Or(Query(a=1))` with `Or(Query(b=2))` actually builds
`And(Query(b=2), Query(a=1))` — the right operand's literal first —
because the inner dispatch is `c2._and(c1)`. -/
theorem c3_counterexample :
    andOp (Node.or [Node.query "a" (Val.vint 1)]) (Node.or [Node.query "b" (Val.vint 2)])
      = Node.or [Node.and [Node.query "b" (Val.vint 2), Node.query "a" (Val.vint 1)]]
    ∧ Node.or [Node.and [Node.query "b" (Val.vint 2), Node.query "a" (Val.vint 1)]]
      ≠ Node.or [Node.and [Node.query "a" (Val.vint 1), Node.query "b" (Val.vint 2)]] := by
  constructor
  · simp [andOp, andList, mkOr, mkAnd, filterOr, filterAnd]
  · intro h
    simp at h

/-- C3 (amended): merging two normalized Disjunctions produces the clauses
in the claimed left-to-right outer-`c1`-then-inner-`c2` enumeration order,
but each resulting Conjunction is built by `c2._and(c1)`: generally the
terms of `c2` (the right operand) precede the terms of `c1`, except when
`c2` is a single Literal and `c1` is a Conjunction, in which case `c1`'s
terms precede `c2` (see `mergeClause`). -/
theorem c3_and_merge (cs1 cs2 : List Node)
    (h1 : ∀ c ∈ cs1, isClauseW c = true) (h2 : ∀ c ∈ cs2, isClauseW c = true) :
    andOp (Node.or cs1) (Node.or cs2)
      = Node.or ((cs1.map (fun c1 => cs2.map (fun c2 => mergeClause c1 c2))).flatten) :=
  andOp_or_or cs1 cs2 h1 h2

/-- Closed witness for the C3 amended theorem on the one-clause
disjunctions `Or(Query(a=1))` and `Or(Query(b=2))`. -/
theorem c3_and_merge_witness :
    andOp (Node.or [Node.query "a" (Val.vint 1)]) (Node.or [Node.query "b" (Val.vint 2)])
      = Node.or (([Node.query "a" (Val.vint 1)].map (fun c1 =>
          [Node.query "b" (Val.vint 2)].map (fun c2 => mergeClause c1 c2))).flatten) := by
  exact c3_and_merge [Node.query "a" (Val.vint 1)] [Node.query "b" (Val.vint 2)]
    (by intro c hc; simp at hc; subst hc; rfl)
    (by intro c hc; simp at hc; subst hc; rfl)

/-- C10: the claim holds — a page whose stored continuation token is the
empty string is treated exactly like a page with no token: `next()`
returns the terminal `None` for every transport oracle, i.e. without
issuing any fetch, because `if not self._last` tests falsiness. -/
theorem c10_empty_token_terminal (fetch : Fetch) (p : RawPage) (lim : Option Nat)
    (h : p.last = some "") : RawPage.next fetch p lim = none := by
  simp [RawPage.next, isFalsyTok, h]

/-- Closed witness for the C10 theorem on a concrete page storing the
empty-string token. -/
theorem c10_empty_token_terminal_witness :
    RawPage.next (fun _ _ _ _ => RawPage.mk "b" none 0 0 none [])
      (RawPage.mk "b" none 5 25 (some "") [[("k", Val.vstr "v")]])
      (some 7) = none :=
  c10_empty_token_terminal (fun _ _ _ _ => RawPage.mk "b" none 0 0 none [])
    (RawPage.mk "b" none 5 25 (some "") [[("k", Val.vstr "v")]]) (some 7) rfl

/-- C6 counterexample: the claim says that once the cursor is Exhausted,
every further next call returns the terminal signal again and never an
error. Running the paginator: delivering the first (token-less) page, then
stepping once signals terminal (`StopAsyncIteration`) and clears
`__current_page`; one more `__anext__` call then hits
`assert self.__current_page` with `None` — an `AssertionError`, not the
terminal signal. -/
theorem c6_counterexample :
    anext (fun _ _ _ _ => RawPage.mk "b" none 0 0 none [])
        (PagState.mk (some (RawPage.mk "b" none 0 0 none [])) none)
      = AnextR.page (RawPage.mk "b" none 0 0 none [])
          (PagState.mk none (some (RawPage.mk "b" none 0 0 none [])))
    ∧ anext (fun _ _ _ _ => RawPage.mk "b" none 0 0 none [])
        (PagState.mk none (some (RawPage.mk "b" none 0 0 none [])))
      = AnextR.stopIter (PagState.mk none none)
    ∧ anext (fun _ _ _ _ => RawPage.mk "b" none 0 0 none [])
        (PagState.mk none none)
      = AnextR.assertFail
    ∧ AnextR.assertFail ≠ AnextR.stopIter (PagState.mk none none) := by
  refine ⟨rfl, rfl, rfl, ?_⟩
  intro h
  simp at h

/-- C6 (amended): `RawPage.next` with a falsy stored token returns the
terminal `None` — repeatably and for every transport oracle, never an
error; the paginator's `__anext__` signals terminal
(`StopAsyncIteration`) exactly once when the current page has no token,
clearing its state, and a further `__anext__` call on that cleared state
fails the internal `assert self.__current_page` (`AssertionError`) instead
of returning the terminal signal again. -/
theorem c6_terminal_behavior (fetch : Fetch) (p : RawPage) (lim : Option Nat)
    (hp : isFalsyTok p.last = true) :
    RawPage.next fetch p lim = none
    ∧ anext fetch (PagState.mk none (some p)) = AnextR.stopIter (PagState.mk none none)
    ∧ anext fetch (PagState.mk none none) = AnextR.assertFail := by
  have h1 : ∀ l2 : Option Nat, RawPage.next fetch p l2 = none := by
    intro l2
    simp [RawPage.next, hp]
  refine ⟨h1 lim, ?_, rfl⟩
  show (match RawPage.next fetch p none with
    | none => AnextR.stopIter (PagState.mk none none)
    | some np => AnextR.page np (PagState.mk none (some np)))
    = AnextR.stopIter (PagState.mk none none)
  rw [h1 none]

/-- Closed witness for the C6 amended theorem on a page storing no
continuation token. -/
theorem c6_terminal_behavior_witness :
    RawPage.next (fun _ _ _ _ => RawPage.mk "b" none 0 0 none [])
        (RawPage.mk "b" none 5 10 none []) (some 3) = none
    ∧ anext (fun _ _ _ _ => RawPage.mk "b" none 0 0 none [])
        (PagState.mk none (some (RawPage.mk "b" none 5 10 none [])))
      = AnextR.stopIter (PagState.mk none none) := by
  have h := c6_terminal_behavior (fun _ _ _ _ => RawPage.mk "b" none 0 0 none [])
    (RawPage.mk "b" none 5 10 none []) (some 3) rfl
  exact ⟨h.1, h.2.1⟩
